import Mathlib

/-!
Verification of the knowledge-base chatbot core of CoPPortal
(src/chatbot.py, with its article-store collaborator src/database.py).

Embedding conventions:
* Python strings are `List Char`; `.lower()`, `.strip()`, `.split()` and the
  substring test `in` are modelled on ASCII (all fixed vocabulary in the
  source is ASCII).
* Python float arithmetic on the scores is modelled by exact fractions
  (`Frac`, an integer numerator with a positive natural denominator,
  interpreted into `ℚ` by `fval`).  The constants 0.3, 2.0, 1.8, 1.5, 1.2,
  0.5 are exactly representable as fractions; the spec (§9) states that
  exact float parity is not required.
* `difflib.SequenceMatcher(None, a, b).ratio()` is embedded in full:
  the b2j index with the autojunk purge of popular elements
  (`len(b) >= 200`, count > `len(b)//100 + 1`), the dynamic-programming
  main loop of `find_longest_match` with its `j < blo` / `j >= bhi`
  continue/break handling, the two non-junk extension loops (the two junk
  extension loops never run because `isjunk is None` makes `bjunk` empty),
  and the divide-and-conquer block decomposition of
  `get_matching_blocks`, whose total matched size feeds
  `ratio = 2*M/(len(a)+len(b))`, with the empty-total case yielding 1.0.
* The SQLite article store is modelled as a list of articles; the two read
  queries sort by (category, title) with byte-order comparison and the
  keyword search filters by case-insensitive substring match, mirroring
  the LIKE patterns of `search_kb_articles`.
-/

set_option maxRecDepth 100000
set_option maxHeartbeats 1000000

namespace CoPPortal

/-! ## Exact fractions standing for Python floats -/

structure Frac where
  num : Int
  den : Nat
  den_pos : 0 < den

def fzero : Frac := ⟨0, 1, Nat.one_pos⟩

def fone : Frac := ⟨1, 1, Nat.one_pos⟩

def fadd (x y : Frac) : Frac :=
  ⟨x.num * (y.den : Int) + y.num * (x.den : Int), x.den * y.den,
    Nat.mul_pos x.den_pos y.den_pos⟩

def fmul (x y : Frac) : Frac :=
  ⟨x.num * y.num, x.den * y.den, Nat.mul_pos x.den_pos y.den_pos⟩

def fleB (x y : Frac) : Bool :=
  decide (x.num * (y.den : Int) ≤ y.num * (x.den : Int))

def fltB (x y : Frac) : Bool :=
  decide (x.num * (y.den : Int) < y.num * (x.den : Int))

/-- Python `min(x, y)` returns the first argument on ties. -/
def fmin (x y : Frac) : Frac := if fleB x y then x else y

/-- Interpretation of a fraction as a rational number. -/
def fval (x : Frac) : ℚ := (x.num : ℚ) / (x.den : ℚ)

/-! ## Python string primitives (ASCII model) -/

def cdef : Char := Char.ofNat 0

/-- ASCII `str.lower` on a single character. -/
def lowerC (c : Char) : Char :=
  if 65 ≤ c.toNat ∧ c.toNat ≤ 90 then Char.ofNat (c.toNat + 32) else c

/-- `str.lower`. -/
def pyLower (s : List Char) : List Char := s.map lowerC

/-- Python whitespace (ASCII part). -/
def isPySpace (c : Char) : Bool :=
  c = ' ' || c = '\t' || c = '\n' || c = '\r' || c = Char.ofNat 11 || c = Char.ofNat 12

/-- `str.strip()`: drop whitespace from both ends. -/
def pyStrip (s : List Char) : List Char :=
  ((s.dropWhile isPySpace).reverse.dropWhile isPySpace).reverse

/-- `str.split()`: split on runs of whitespace, producing no empty words. -/
def pySplit : List Char → List (List Char)
  | [] => []
  | c :: cs =>
    let rest := pySplit cs
    if isPySpace c then rest
    else
      match cs with
      | [] => [[c]]
      | c2 :: _ =>
        if isPySpace c2 then [c] :: rest
        else
          match rest with
          | [] => [[c]]
          | w :: ws => (c :: w) :: ws

/-- Does `needle` occur at the head of `hay`? -/
def leadEq : List Char → List Char → Bool
  | [], _ => true
  | _ :: _, [] => false
  | c :: cs, d :: ds => c = d && leadEq cs ds

/-- Python substring test `needle in hay`. -/
def subIn (needle : List Char) : List Char → Bool
  | [] => needle.isEmpty
  | d :: t => leadEq needle (d :: t) || subIn needle t

/-! ## difflib.SequenceMatcher(None, a, b), specialized to isjunk = None -/

/-- Ascending indices of occurrences of `c` in `b` (the b2j entry before the
autojunk purge). -/
def indicesOf (b : List Char) (c : Char) : List Nat :=
  (List.range b.length).filter (fun j => b.getD j cdef = c)

/-- The autojunk popularity test: with `len(b) >= 200`, elements occurring
more than `len(b) // 100 + 1` times are purged from b2j. -/
def popularB (b : List Char) (c : Char) : Bool :=
  decide (200 ≤ b.length) && decide (b.length / 100 + 1 < b.count c)

/-- The b2j lookup `b2j.get(c, [])` after the autojunk purge. -/
def b2j (b : List Char) (c : Char) : List Nat :=
  if popularB b c then [] else indicesOf b c

/-- State of the `find_longest_match` main loop: the previous row of the
length dictionary, and the best match so far. -/
structure FS where
  j2 : Nat → Nat
  bi : Nat
  bj : Nat
  bs : Nat

/-- `k = j2len.get(j-1, 0) + 1` (with Python key `-1` out of the dictionary,
hence the `j = 0` case). -/
def kOf (old : Nat → Nat) (j : Nat) : Nat :=
  (if j = 0 then 0 else old (j - 1)) + 1

/-- One iteration of the inner loop of `find_longest_match`:
record `newj2len[j] = k` and update the best match when `k > bestsize`. -/
def stepJ (i : Nat) (old : Nat → Nat) (s : FS) (j : Nat) : FS :=
  let k := kOf old j
  let j2n := fun x => if x = j then k else s.j2 x
  if s.bs < k then ⟨j2n, i + 1 - k, j + 1 - k, k⟩ else ⟨j2n, s.bi, s.bj, s.bs⟩

/-- The `j` values processed in one row: the b2j list is ascending, so the
`continue` on `j < blo` and the `break` on `j >= bhi` process exactly the
prefix below `bhi` restricted to `blo ≤ j`. -/
def rowJs (b : List Char) (blo bhi : Nat) (c : Char) : List Nat :=
  ((b2j b c).takeWhile (fun j => decide (j < bhi))).filter (fun j => decide (blo ≤ j))

/-- One iteration of the outer loop over `i`: each row starts with an empty
`newj2len` and reads the previous row through `old`. -/
def rowStep (a b : List Char) (blo bhi : Nat) (s : FS) (i : Nat) : FS :=
  (rowJs b blo bhi (a.getD i cdef)).foldl (stepJ i s.j2) ⟨fun _ => 0, s.bi, s.bj, s.bs⟩

/-- The dynamic-programming main loop of `find_longest_match`. -/
def mainLoop (a b : List Char) (alo ahi blo bhi : Nat) : FS :=
  (List.range' alo (ahi - alo)).foldl (rowStep a b blo bhi) ⟨fun _ => 0, alo, blo, 0⟩

/-- Backward extension loop: with `bjunk` empty, extend while the preceding
elements inside the window are equal.  The loop decrements `bi` while
`alo < bi`, so it runs at most `bi` times; the fuel argument makes the
recursion structural, and when the fuel runs out `bi` has reached 0, where
the loop guard is false as well. -/
def extBackF (a b : List Char) (alo blo : Nat) : Nat → Nat → Nat → Nat → Nat × Nat × Nat
  | 0, bi, bj, bs => (bi, bj, bs)
  | fuel + 1, bi, bj, bs =>
    if alo < bi ∧ blo < bj ∧ a.getD (bi - 1) cdef = b.getD (bj - 1) cdef then
      extBackF a b alo blo fuel (bi - 1) (bj - 1) (bs + 1)
    else (bi, bj, bs)

def extBack (a b : List Char) (alo blo : Nat) (bi bj bs : Nat) : Nat × Nat × Nat :=
  extBackF a b alo blo bi bi bj bs

/-- Forward extension loop: it increments `bs` while `bi + bs < ahi`, so it
runs at most `ahi - (bi + bs)` times; when the fuel runs out `bi + bs` has
reached `ahi`, where the loop guard is false as well. -/
def extFwdF (a b : List Char) (ahi bhi bi bj : Nat) : Nat → Nat → Nat
  | 0, bs => bs
  | fuel + 1, bs =>
    if bi + bs < ahi ∧ bj + bs < bhi ∧ a.getD (bi + bs) cdef = b.getD (bj + bs) cdef then
      extFwdF a b ahi bhi bi bj fuel (bs + 1)
    else bs

def extFwd (a b : List Char) (ahi bhi : Nat) (bi bj bs : Nat) : Nat :=
  extFwdF a b ahi bhi bi bj (ahi - (bi + bs)) bs

/-- `find_longest_match(alo, ahi, blo, bhi)`; the two junk extension loops
are omitted because `bjunk` is empty when `isjunk is None`. -/
def findLongestMatch (a b : List Char) (alo ahi blo bhi : Nat) : Nat × Nat × Nat :=
  let s := mainLoop a b alo ahi blo bhi
  let t := extBack a b alo blo s.bi s.bj s.bs
  let bs2 := extFwd a b ahi bhi t.1 t.2.1 t.2.2
  (t.1, t.2.1, bs2)

/-- Elements processed in a row lie in the window `[blo, bhi)`. -/
theorem mem_rowJs {b : List Char} {blo bhi : Nat} {c : Char} {j : Nat}
    (h : j ∈ rowJs b blo bhi c) : blo ≤ j ∧ j < bhi ∧ j ∈ b2j b c := by
  rcases List.mem_filter.mp h with ⟨h1, h2⟩
  refine ⟨by simpa using h2, by simpa using List.mem_takeWhile_imp h1, ?_⟩
  exact (List.takeWhile_sublist _).subset h1

/-- Invariant of the `j2len` rows: after `r` rows every value is at most `r`,
and a nonzero value `k` at key `j` satisfies `blo ≤ j` and `k + blo ≤ j + 1`. -/
def J2Inv (blo r : Nat) (f : Nat → Nat) : Prop :=
  ∀ j, f j ≤ r ∧ (f j ≠ 0 → blo ≤ j ∧ f j + blo ≤ j + 1)

/-- Invariant of the best match: a nonzero best fits inside the window, and a
zero best is still at its initial position. -/
def BestInv (alo ahi blo bhi : Nat) (s : FS) : Prop :=
  (s.bs ≠ 0 → alo ≤ s.bi ∧ s.bi + s.bs ≤ ahi ∧ blo ≤ s.bj ∧ s.bj + s.bs ≤ bhi) ∧
  (s.bs = 0 → s.bi = alo ∧ s.bj = blo)

theorem bestInv_mk (alo ahi blo bhi : Nat) (f : Nat → Nat) (bi bj bs : Nat)
    (h1 : bs ≠ 0 → alo ≤ bi ∧ bi + bs ≤ ahi ∧ blo ≤ bj ∧ bj + bs ≤ bhi)
    (h2 : bs = 0 → bi = alo ∧ bj = blo) :
    BestInv alo ahi blo bhi ⟨f, bi, bj, bs⟩ := ⟨h1, h2⟩

theorem rowStep_inv {a b : List Char} {alo ahi blo bhi r : Nat} {s : FS} {i : Nat}
    (hj : J2Inv blo r s.j2) (hb : BestInv alo ahi blo bhi s)
    (hi1 : alo ≤ i) (hi2 : i < ahi) (hir : i = alo + r) :
    J2Inv blo (r + 1) (rowStep a b blo bhi s i).j2 ∧
      BestInv alo ahi blo bhi (rowStep a b blo bhi s i) := by
  unfold rowStep
  refine List.foldlRecOn
    (motive := fun u => J2Inv blo (r + 1) u.j2 ∧ BestInv alo ahi blo bhi u) _ _ _ ?_ ?_
  · constructor
    · intro j
      exact ⟨Nat.zero_le _, fun h => absurd rfl h⟩
    · exact hb
  · rintro t ⟨htj, htb⟩ j hjmem
    obtain ⟨hblo, hbhi, _⟩ := mem_rowJs hjmem
    have hk1 : kOf s.j2 j ≤ r + 1 := by
      unfold kOf
      split
      · omega
      · have := (hj (j - 1)).1
        omega
    have hk2 : kOf s.j2 j + blo ≤ j + 1 := by
      unfold kOf
      split
      · omega
      · rcases Nat.eq_zero_or_pos (s.j2 (j - 1)) with h0 | h0
        · omega
        · have := (hj (j - 1)).2 (by omega)
          omega
    have hk0 : kOf s.j2 j ≠ 0 := by
      unfold kOf
      omega
    have hj2 : ∀ u : FS, u.j2 = (fun x => if x = j then kOf s.j2 j else t.j2 x) →
        J2Inv blo (r + 1) u.j2 := by
      intro u hu x
      simp only [hu]
      by_cases hx : x = j
      · subst hx
        rw [if_pos rfl]
        exact ⟨hk1, fun _ => ⟨hblo, hk2⟩⟩
      · rw [if_neg hx]
        exact htj x
    simp only [stepJ]
    split
    · rename_i hlt
      refine ⟨hj2 _ rfl, bestInv_mk _ _ _ _ _ _ _ _ ?_ ?_⟩
      · intro _
        refine ⟨by omega, by omega, by omega, by omega⟩
      · intro h0
        exact absurd h0 hk0
    · exact ⟨hj2 _ rfl, htb⟩

theorem mainLoop_partial_inv (a b : List Char) (alo ahi blo bhi : Nat) (r : Nat)
    (hr : alo + r ≤ ahi) :
    J2Inv blo r ((List.range' alo r).foldl (rowStep a b blo bhi) ⟨fun _ => 0, alo, blo, 0⟩).j2 ∧
      BestInv alo ahi blo bhi
        ((List.range' alo r).foldl (rowStep a b blo bhi) ⟨fun _ => 0, alo, blo, 0⟩) := by
  induction r with
  | zero =>
    constructor
    · intro j
      exact ⟨Nat.zero_le _, fun h => absurd rfl h⟩
    · exact ⟨fun h => absurd rfl h, fun _ => ⟨rfl, rfl⟩⟩
  | succ n ih =>
    have hn : alo + n ≤ ahi := by omega
    obtain ⟨hj, hb⟩ := ih hn
    have : List.range' alo (n + 1) = List.range' alo n ++ [alo + n] := by
      simpa using @List.range'_concat 1 alo n
    rw [this, List.foldl_append]
    simp only [List.foldl_cons, List.foldl_nil]
    exact rowStep_inv hj hb (by omega) (by omega) (by omega)

theorem mainLoop_inv (a b : List Char) (alo ahi blo bhi : Nat) :
    BestInv alo ahi blo bhi (mainLoop a b alo ahi blo bhi) := by
  unfold mainLoop
  rcases Nat.le_total alo ahi with h | h
  · have := mainLoop_partial_inv a b alo ahi blo bhi (ahi - alo) (by omega)
    exact this.2
  · have hz : ahi - alo = 0 := by omega
    rw [hz]
    exact ⟨fun hc => absurd rfl hc, fun _ => ⟨rfl, rfl⟩⟩

theorem extBack_inv (a b : List Char) (alo ahi blo bhi : Nat) :
    ∀ bi bj bs,
      ((bs ≠ 0 → alo ≤ bi ∧ bi + bs ≤ ahi ∧ blo ≤ bj ∧ bj + bs ≤ bhi) ∧
        (bs = 0 → bi = alo ∧ bj = blo)) →
      ((extBack a b alo blo bi bj bs).2.2 ≠ 0 →
          alo ≤ (extBack a b alo blo bi bj bs).1 ∧
          (extBack a b alo blo bi bj bs).1 + (extBack a b alo blo bi bj bs).2.2 ≤ ahi ∧
          blo ≤ (extBack a b alo blo bi bj bs).2.1 ∧
          (extBack a b alo blo bi bj bs).2.1 + (extBack a b alo blo bi bj bs).2.2 ≤ bhi) ∧
        ((extBack a b alo blo bi bj bs).2.2 = 0 →
          (extBack a b alo blo bi bj bs).1 = alo ∧ (extBack a b alo blo bi bj bs).2.1 = blo) := by
  have main : ∀ fuel bi bj bs,
      ((bs ≠ 0 → alo ≤ bi ∧ bi + bs ≤ ahi ∧ blo ≤ bj ∧ bj + bs ≤ bhi) ∧
        (bs = 0 → bi = alo ∧ bj = blo)) →
      ((extBackF a b alo blo fuel bi bj bs).2.2 ≠ 0 →
          alo ≤ (extBackF a b alo blo fuel bi bj bs).1 ∧
          (extBackF a b alo blo fuel bi bj bs).1 +
            (extBackF a b alo blo fuel bi bj bs).2.2 ≤ ahi ∧
          blo ≤ (extBackF a b alo blo fuel bi bj bs).2.1 ∧
          (extBackF a b alo blo fuel bi bj bs).2.1 +
            (extBackF a b alo blo fuel bi bj bs).2.2 ≤ bhi) ∧
        ((extBackF a b alo blo fuel bi bj bs).2.2 = 0 →
          (extBackF a b alo blo fuel bi bj bs).1 = alo ∧
          (extBackF a b alo blo fuel bi bj bs).2.1 = blo) := by
    intro fuel
    induction fuel with
    | zero =>
      intro bi bj bs hin
      exact hin
    | succ n ih =>
      intro bi bj bs hin
      simp only [extBackF]
      split
      · rename_i h
        apply ih
        rcases Nat.eq_zero_or_pos bs with h0 | h0
        · obtain ⟨he1, he2⟩ := hin.2 h0
          constructor
          · intro _
            omega
          · intro hc
            omega
        · have := hin.1 (by omega)
          constructor
          · intro _
            omega
          · intro hc
            omega
      · exact hin
  intro bi bj bs hin
  exact main bi bi bj bs hin

theorem extFwd_inv (a b : List Char) (ahi bhi : Nat) (bi bj : Nat) :
    ∀ bs,
      (bs ≠ 0 → bi + bs ≤ ahi ∧ bj + bs ≤ bhi) →
      (extFwd a b ahi bhi bi bj bs ≠ 0 →
        bi + extFwd a b ahi bhi bi bj bs ≤ ahi ∧ bj + extFwd a b ahi bhi bi bj bs ≤ bhi) := by
  have main : ∀ fuel bs,
      (bs ≠ 0 → bi + bs ≤ ahi ∧ bj + bs ≤ bhi) →
      (extFwdF a b ahi bhi bi bj fuel bs ≠ 0 →
        bi + extFwdF a b ahi bhi bi bj fuel bs ≤ ahi ∧
          bj + extFwdF a b ahi bhi bi bj fuel bs ≤ bhi) := by
    intro fuel
    induction fuel with
    | zero =>
      intro bs hin
      exact hin
    | succ n ih =>
      intro bs hin
      simp only [extFwdF]
      split
      · rename_i h
        apply ih
        intro _
        omega
      · exact hin
  intro bs hin
  exact main (ahi - (bi + bs)) bs hin

/-- Window bounds for the result of `find_longest_match`. -/
theorem flm_bounds (a b : List Char) (alo ahi blo bhi : Nat) :
    alo ≤ (findLongestMatch a b alo ahi blo bhi).1 ∧
      blo ≤ (findLongestMatch a b alo ahi blo bhi).2.1 ∧
      ((findLongestMatch a b alo ahi blo bhi).2.2 ≠ 0 →
        (findLongestMatch a b alo ahi blo bhi).1 + (findLongestMatch a b alo ahi blo bhi).2.2 ≤ ahi ∧
        (findLongestMatch a b alo ahi blo bhi).2.1 + (findLongestMatch a b alo ahi blo bhi).2.2 ≤ bhi) := by
  have hm := mainLoop_inv a b alo ahi blo bhi
  set s := mainLoop a b alo ahi blo bhi with hs
  have hback := extBack_inv a b alo ahi blo bhi s.bi s.bj s.bs ⟨hm.1, hm.2⟩
  set t := extBack a b alo blo s.bi s.bj s.bs with ht
  have hfwd := extFwd_inv a b ahi bhi t.1 t.2.1 t.2.2
    (fun h => ⟨(hback.1 h).2.1, (hback.1 h).2.2.2⟩)
  have hflm : findLongestMatch a b alo ahi blo bhi =
      (t.1, t.2.1, extFwd a b ahi bhi t.1 t.2.1 t.2.2) := by
    rw [findLongestMatch, ← hs, ← ht]
  rw [hflm]
  constructor
  · rcases Nat.eq_zero_or_pos t.2.2 with h0 | h0
    · exact (hback.2 h0).1.ge
    · exact (hback.1 (by omega)).1
  constructor
  · rcases Nat.eq_zero_or_pos t.2.2 with h0 | h0
    · exact (hback.2 h0).2.ge
    · exact (hback.1 (by omega)).2.2.1
  · intro hne
    exact hfwd hne

/-- Total size of the matching blocks of `get_matching_blocks` over the
window: the longest match plus, recursively, the blocks to its left and to
its right.  (The queue in difflib discovers the same blocks; only their
discovery order differs, and `ratio` sums their sizes.)  The recursion is
on strictly shrinking windows, so fuel equal to the window size suffices;
when the fuel runs out the window is empty and `find_longest_match` returns
an empty match there, so both agree (see `flm_bounds` and
`matchTotalF_fuel` below). -/
def matchTotalF (a b : List Char) : Nat → Nat → Nat → Nat → Nat → Nat
  | 0, _, _, _, _ => 0
  | fuel + 1, alo, ahi, blo, bhi =>
    let t := findLongestMatch a b alo ahi blo bhi
    if t.2.2 = 0 then 0
    else
      matchTotalF a b fuel alo t.1 blo t.2.1 + t.2.2 +
        matchTotalF a b fuel (t.1 + t.2.2) ahi (t.2.1 + t.2.2) bhi

def matchTotal (a b : List Char) (alo ahi blo bhi : Nat) : Nat :=
  matchTotalF a b (ahi - alo) alo ahi blo bhi

/-- The value that row `r` (i.e. `i = alo + r`) of the main loop stores at
key `j`: the length of the chain of matches ending at `(alo + r, j)`.  Used
to reason about the dictionary rows of `find_longest_match`. -/
def mV (a b : List Char) (alo blo bhi : Nat) : Nat → Nat → Nat
  | 0, j => if j ∈ rowJs b blo bhi (a.getD alo cdef) then 1 else 0
  | r + 1, j =>
    if j ∈ rowJs b blo bhi (a.getD (alo + r + 1) cdef) then
      (if j = 0 then 0 else mV a b alo blo bhi r (j - 1)) + 1
    else 0

/-- `SequenceMatcher.ratio()`: `2*M / (len(a)+len(b))`, and 1 when both are
empty (`_calculate_ratio`). -/
def similarity (a b : List Char) : Frac :=
  if h : a.length + b.length = 0 then fone
  else ⟨2 * (matchTotal a b 0 a.length 0 b.length : Int), a.length + b.length, by omega⟩

/-! ## The chatbot (src/chatbot.py) -/

/-- `fuzzy_score(query, text)`: the 0.3 substring bonus per query token plus
the sequence-similarity ratio, capped at 1.0. -/
def fuzzy_score (query text : List Char) : Frac :=
  let ql := pyLower query
  let tl := pyLower text
  let substringScore :=
    (pySplit ql).foldl (fun acc w => if subIn w tl then fadd acc ⟨3, 10, by omega⟩ else acc) fzero
  fmin fone (fadd substringScore (similarity ql tl))

/-- A knowledge-base article row (kb_articles): every field is present, with
the empty string standing for a missing value. -/
structure Article where
  id : Nat
  title : List Char
  category : List Char
  description : List Char
  url : List Char
  source_type : List Char
  tags : List Char
deriving DecidableEq, Repr

/-- INTENT_MAP, in declaration order. -/
def INTENT_MAP : List (List Char × List (List Char)) :=
  [ ("incident".data,
      ["incident".data, "outage".data, "P1".data, "P2".data, "sev1".data, "sev2".data,
       "alert".data, "page".data, "fire".data, "escalat".data, "on-call".data, "oncall".data,
       "respond".data, "triage".data]),
    ("monitoring".data,
      ["monitor".data, "observ".data, "metric".data, "dashboard".data, "grafana".data,
       "dynatrace".data, "prometheus".data, "alert".data, "SLO".data, "SLI".data, "SLA".data,
       "error budget".data, "APM".data, "RUM".data, "synthetic".data, "trace".data, "log".data]),
    ("deployment".data,
      ["deploy".data, "pipeline".data, "CI/CD".data, "harness".data, "canary".data,
       "rollback".data, "release".data, "build".data, "artifact".data, "helm".data,
       "docker".data]),
    ("infrastructure".data,
      ["kubernetes".data, "k8s".data, "terraform".data, "pod".data, "container".data,
       "node".data, "cluster".data, "AWS".data, "cloud".data, "IaC".data, "infra".data,
       "scaling".data, "load balanc".data]),
    ("reliability".data,
      ["chaos".data, "fault".data, "resilience".data, "DR".data, "disaster".data,
       "recovery".data, "failover".data, "RTO".data, "RPO".data, "redundan".data,
       "availability".data, "SRE".data, "toil".data]),
    ("postmortem".data,
      ["postmortem".data, "post-mortem".data, "RCA".data, "root cause".data, "blameless".data,
       "retrospect".data, "lessons learned".data, "action item".data]) ]

/-- The apostrophe character, spelled by code point. -/
def apoc : List Char := [Char.ofNat 39]

/-- GREETINGS (a Python set: only membership and existential tests are used,
so the order below is immaterial). -/
def GREETINGS : List (List Char) :=
  ["hello".data, "hi".data, "hey".data, "good morning".data, "good afternoon".data,
   "howdy".data, "sup".data, "what".data ++ apoc ++ "s up".data]

/-- HELP_PATTERNS (a Python set; order immaterial). -/
def HELP_PATTERNS : List (List Char) :=
  ["help".data, "what can you do".data, "how does this work".data, "commands".data,
   "guide me".data]

/-- `classify_intent`: an intent is appended when any of its keywords occurs
(lowercased) in the lowercased query; the inner break makes this an
existence test, so the loop is a filter over INTENT_MAP in order. -/
def classify_intent (query : List Char) : List (List Char) :=
  let ql := pyLower query
  (INTENT_MAP.filter (fun p => p.2.any (fun kw => subIn (pyLower kw) ql))).map Prod.fst

/-- One step of a stable insertion sort: place `x` before the first element
it may precede. -/
def insertD (le : Frac × Article → Frac × Article → Bool) (x : Frac × Article) :
    List (Frac × Article) → List (Frac × Article)
  | [] => [x]
  | y :: ys => if le x y then x :: y :: ys else y :: insertD le x ys

/-- Stable sort modelling Python `list.sort` (any stable sort by the same
key is extensionally the same function; this one is structurally recursive,
so it computes by kernel reduction). -/
def isortS (le : Frac × Article → Frac × Article → Bool) :
    List (Frac × Article) → List (Frac × Article)
  | [] => []
  | x :: xs => insertD le x (isortS le xs)

/-- Same stable sort at the type used by the article store. -/
def insertA (le : Article → Article → Bool) (x : Article) : List Article → List Article
  | [] => [x]
  | y :: ys => if le x y then x :: y :: ys else y :: insertA le x ys

def isortA (le : Article → Article → Bool) : List Article → List Article
  | [] => []
  | x :: xs => insertA le x (isortA le xs)

/-- The total multi-field score of `rank_articles`:
title×2.0 + description×1.5 + tags×1.8 + category×1.2. -/
def totalScore (query : List Char) (a : Article) : Frac :=
  fadd
    (fadd
      (fadd (fmul (fuzzy_score query a.title) ⟨2, 1, by omega⟩)
        (fmul (fuzzy_score query a.description) ⟨3, 2, by omega⟩))
      (fmul (fuzzy_score query a.tags) ⟨9, 5, by omega⟩))
    (fmul (fuzzy_score query a.category) ⟨6, 5, by omega⟩)

/-- The comparison of Python `list.sort(key=lambda x: x[0], reverse=True)`:
a stable sort that places higher totals first. -/
def scoreDescB (x y : Frac × Article) : Bool := fleB y.1 x.1

/-- The admission threshold `item[0] > 0.5`. -/
def overHalfB (x : Frac × Article) : Bool := fltB ⟨1, 2, by omega⟩ x.1

/-- `rank_articles`: score every article, sort by descending total (stable),
keep those over the threshold. -/
def rank_articles (query : List Char) (articles : List Article) : List Article :=
  ((isortS scoreDescB (articles.map (fun a => (totalScore query a, a)))).filter
    overHalfB).map Prod.snd

/-! ## The article store (src/database.py, read operations) -/

/-- Byte-order (SQLite BINARY) comparison of two strings, strict. -/
def lexLtB : List Char → List Char → Bool
  | [], [] => false
  | [], _ :: _ => true
  | _ :: _, [] => false
  | c :: cs, d :: ds => decide (c.toNat < d.toNat) || (decide (c = d) && lexLtB cs ds)

/-- ORDER BY category, title. -/
def catTitleLeB (x y : Article) : Bool :=
  lexLtB x.category y.category ||
    (decide (x.category = y.category) &&
      (lexLtB x.title y.title || decide (x.title = y.title)))

/-- `get_all_kb_articles()`: every row, ordered by category then title. -/
def get_all_kb_articles (db : List Article) : List Article :=
  isortA catTitleLeB db

/-- One OR-group of the WHERE clause: `LOWER(field) LIKE '%term%'` over the
four searched fields. -/
def termHitB (a : Article) (t : List Char) : Bool :=
  subIn t (pyLower a.title) || subIn t (pyLower a.description) ||
    subIn t (pyLower a.tags) || subIn t (pyLower a.category)

/-- `search_kb_articles(query)`: whitespace-tokenize the lowercased query;
with no terms return everything, otherwise the rows matching any term,
ordered by category then title. -/
def search_kb_articles (db : List Article) (query : List Char) : List Article :=
  let terms := pySplit (pyLower query)
  if terms.isEmpty then get_all_kb_articles db
  else isortA catTitleLeB (db.filter (fun a => terms.any (termHitB a)))

/-! ## chatbot_response -/

structure Response where
  message : List Char
  articles : List Article
  suggestions : List (List Char)
deriving DecidableEq, Repr

/-- The merge loop of `chatbot_response`: keep an article when its id has not
been seen, remembering seen ids. -/
def dedupGo (seen : List Nat) : List Article → List Article
  | [] => []
  | a :: rest =>
    if a.id ∈ seen then dedupGo seen rest else a :: dedupGo (a.id :: seen) rest

def dedupById (xs : List Article) : List Article := dedupGo [] xs

/-- Decimal rendering of a count, for the f-string. -/
def natStr (n : Nat) : List Char := (toString n).data

/-- `query.lower() in GREETINGS or any(g in query.lower() for g in GREETINGS)`. -/
def isGreetingB (ql : List Char) : Bool :=
  GREETINGS.contains ql || GREETINGS.any (fun g => subIn g ql)

/-- `any(h in query.lower() for h in HELP_PATTERNS)`. -/
def isHelpB (ql : List Char) : Bool := HELP_PATTERNS.any (fun h => subIn h ql)

def emptyQueryMessage : List Char :=
  "Please type a question or topic — I".data ++ apoc ++
    "ll find the most relevant SRE resources for you.".data

def emptyQuerySuggestions : List (List Char) :=
  ["incident response".data, "monitoring setup".data, "chaos engineering".data]

def greetingMessage : List Char :=
  "👋 Hey there! I".data ++ apoc ++ "m the SRE Knowledge Base assistant. ".data ++
    "Ask me about any SRE topic and I".data ++ apoc ++
    "ll point you to the right Confluence page or external resource.\n\n**Try asking about:**".data

def greetingSuggestions : List (List Char) :=
  ["How do I respond to a P1 incident?".data,
   "Show me chaos engineering resources".data,
   "Where".data ++ apoc ++ "s the Dynatrace setup guide?".data,
   "What are our SLO standards?".data,
   "Kubernetes troubleshooting help".data]

def helpMessage : List Char :=
  ("🔍 **I can help you find SRE resources!**\n\n" ++
    "Just describe what you need in plain language. I search across:\n" ++
    "- 📘 Internal Confluence pages\n" ++
    "- 🌐 External SRE resources\n" ++
    "- 🏷️ Tags, categories, and descriptions\n\n**Example queries:**").data

def helpSuggestions : List (List Char) :=
  ["incident runbook".data, "Grafana dashboard setup".data, "disaster recovery plan".data,
   "terraform standards".data, "on-call rotation policy".data]

/-- The f-string of the non-empty result branch. -/
def foundMessage (n : Nat) (label query : List Char) : List Char :=
  "📚 Found **".data ++ natStr n ++ "** relevant ".data ++ label ++
    " for *\"".data ++ query ++ "\"*:".data

/-- The no-result message. -/
def notFoundMessage (query : List Char) : List Char :=
  "🤔 I couldn".data ++ apoc ++ "t find articles matching *\"".data ++ query ++
    "\"*. Try different keywords or browse the suggestions below.".data

/-- The source-mix label, from the set of source_type values present. -/
def sourceLabel (types : List (List Char)) : List Char :=
  if types.contains "confluence".data && types.contains "external".data then
    "Confluence pages and external resources".data
  else if types.contains "confluence".data then "Confluence pages".data
  else "external resources".data

/-- The per-intent suggestion table of `_generate_suggestions`. -/
def intent_suggestions : List (List Char × List (List Char)) :=
  [ ("incident".data,
      ["postmortem template".data, "on-call escalation policy".data,
       "PagerDuty operations guide".data]),
    ("monitoring".data,
      ["SLO/SLI definitions".data, "Grafana dashboards".data, "Dynatrace RUM setup".data]),
    ("deployment".data,
      ["canary deployment strategy".data, "rollback procedures".data,
       "Harness pipeline guide".data]),
    ("infrastructure".data,
      ["Kubernetes troubleshooting".data, "Terraform IaC standards".data,
       "AWS reliability pillar".data]),
    ("reliability".data,
      ["chaos engineering playbook".data, "disaster recovery plan".data,
       "error budget policy".data]),
    ("postmortem".data,
      ["incident response runbook".data, "blameless postmortem guide".data,
       "action item tracking".data]) ]

def genericSuggestions : List (List Char) :=
  ["incident management".data, "observability tools".data,
   "infrastructure automation".data, "reliability testing".data]

/-- `_generate_suggestions(query, intents, results)` (the results argument is
unused in the source as well). -/
def generate_suggestions (query : List Char) (intents : List (List Char))
    (results : List Article) : List (List Char) :=
  let fromIntents := intents.foldl
    (fun acc it =>
      match intent_suggestions.find? (fun p => p.1 = it) with
      | some p => acc ++ p.2
      | none => acc) []
  let base := if fromIntents.isEmpty then genericSuggestions else fromIntents
  let ql := pyLower query
  (base.filter (fun s => !subIn ql (pyLower s))).take 4

/-- `chatbot_response(user_input)`, with the article store passed explicitly
as the list of rows it would serve. -/
def chatbot_response (db : List Article) (user_input : List Char) : Response :=
  let query := pyStrip user_input
  if query.isEmpty then
    ⟨emptyQueryMessage, [], emptyQuerySuggestions⟩
  else if isGreetingB (pyLower query) then
    ⟨greetingMessage, [], greetingSuggestions⟩
  else if isHelpB (pyLower query) then
    ⟨helpMessage, [], helpSuggestions⟩
  else
    let db_results := search_kb_articles db query
    let all_articles := get_all_kb_articles db
    let ranked := rank_articles query all_articles
    let top_results := (dedupById (db_results ++ ranked)).take 5
    let intents := classify_intent query
    let message :=
      if top_results.isEmpty then notFoundMessage query
      else foundMessage top_results.length (sourceLabel (top_results.map Article.source_type)) query
    ⟨message, top_results, generate_suggestions query intents top_results⟩

/-! ## Spec-side definitions and concrete fixtures -/

/-- The general-query branch of §4.4: a non-empty stripped query that is
neither a greeting nor a help request. -/
def generalBranchB (input : List Char) : Bool :=
  !(pyStrip input).isEmpty && !isGreetingB (pyLower (pyStrip input)) &&
    !isHelpB (pyLower (pyStrip input))

/-- Spec-side field score for C2: "a missing or empty field contributes 0". -/
def specFieldScore (query field : List Char) : Frac :=
  if field.isEmpty then fzero else fuzzy_score query field

/-- Spec-side total for C2: title×2.0 + description×1.5 + tags×1.8 +
category×1.2 with empty fields contributing 0. -/
def specTotal (query : List Char) (a : Article) : Frac :=
  fadd
    (fadd
      (fadd (fmul (specFieldScore query a.title) ⟨2, 1, by omega⟩)
        (fmul (specFieldScore query a.description) ⟨3, 2, by omega⟩))
      (fmul (specFieldScore query a.tags) ⟨9, 5, by omega⟩))
    (fmul (specFieldScore query a.category) ⟨6, 5, by omega⟩)

/-- An article with every text field empty (C2 counterexample fixture). -/
def artEmpty : Article :=
  ⟨1, [], [], [], [], [], []⟩

/-- C10 fixture: its only keyword hit is the literal "zq" inside a long
description, keeping the fuzzy total below the admission threshold. -/
def artZq : Article :=
  ⟨7, "Server Basics".data, "hardware".data, "zq".data ++ List.replicate 128 'x',
    "http://kb/7".data, "confluence".data, []⟩

/-- Witness fixture: the two-character string "ab". -/
def abL : List Char := ['a', 'b']

/-- Witness fixture: the two-character string "xy", character-disjoint from
`abL`. -/
def xyL : List Char := ['x', 'y']

/-- Witness fixture: a plainly relevant article. -/
def artKube : Article :=
  ⟨3, "Kubernetes Troubleshooting".data, "infrastructure".data,
    "Pod and cluster triage".data, "http://kb/3".data, "confluence".data,
    "k8s,kubernetes".data⟩

/-- Witness fixture: an external article on the same topic. -/
def artKubeExt : Article :=
  ⟨4, "Kubernetes Docs".data, "infrastructure".data,
    "Official kubernetes reference".data, "http://ext/4".data, "external".data,
    "kubernetes".data⟩

/-! ## Interpretation lemmas for the fraction arithmetic -/

theorem fden_ne {x : Frac} : ((x.den : ℚ)) ≠ 0 := by
  exact_mod_cast x.den_pos.ne'

theorem fval_fadd (x y : Frac) : fval (fadd x y) = fval x + fval y := by
  have hx : ((x.den : ℚ)) ≠ 0 := fden_ne
  have hy : ((y.den : ℚ)) ≠ 0 := fden_ne
  unfold fval fadd
  push_cast
  field_simp

theorem fval_fmul (x y : Frac) : fval (fmul x y) = fval x * fval y := by
  unfold fval fmul
  push_cast
  rw [div_mul_div_comm]

theorem fleB_iff {x y : Frac} : fleB x y = true ↔ fval x ≤ fval y := by
  have hx : (0:ℚ) < (x.den : ℚ) := by exact_mod_cast x.den_pos
  have hy : (0:ℚ) < (y.den : ℚ) := by exact_mod_cast y.den_pos
  unfold fleB fval
  rw [decide_eq_true_iff, div_le_div_iff hx hy]
  constructor
  · intro h
    exact_mod_cast h
  · intro h
    exact_mod_cast h

theorem fltB_iff {x y : Frac} : fltB x y = true ↔ fval x < fval y := by
  have hx : (0:ℚ) < (x.den : ℚ) := by exact_mod_cast x.den_pos
  have hy : (0:ℚ) < (y.den : ℚ) := by exact_mod_cast y.den_pos
  unfold fltB fval
  rw [decide_eq_true_iff, div_lt_div_iff hx hy]
  constructor
  · intro h
    exact_mod_cast h
  · intro h
    exact_mod_cast h

theorem fval_fmin (x y : Frac) : fval (fmin x y) = min (fval x) (fval y) := by
  unfold fmin
  by_cases h : fleB x y = true
  · rw [if_pos h, eq_comm, min_eq_left (fleB_iff.mp h)]
  · have : ¬ fval x ≤ fval y := fun hc => h (fleB_iff.mpr hc)
    rw [if_neg (by simpa using h), eq_comm, min_eq_right (le_of_not_le this)]

theorem fval_fzero : fval fzero = 0 := by
  unfold fval fzero
  norm_num

theorem fval_fone : fval fone = 1 := by
  unfold fval fone
  norm_num

theorem fval_mk (n : Int) (d : Nat) (h : 0 < d) : fval ⟨n, d, h⟩ = (n : ℚ) / (d : ℚ) := rfl

/-! ## Substring test vs List.IsInfix -/

theorem leadEq_iff {n h : List Char} : leadEq n h = true ↔ n <+: h := by
  induction n generalizing h with
  | nil =>
    simp [leadEq, List.nil_prefix]
  | cons c cs ih =>
    cases h with
    | nil => simp [leadEq]
    | cons d ds =>
      simp only [leadEq, Bool.and_eq_true, decide_eq_true_iff, ih, List.cons_prefix_cons]

theorem subIn_iff {n h : List Char} : subIn n h = true ↔ n <:+: h := by
  induction h with
  | nil =>
    simp only [subIn, List.isEmpty_iff]
    constructor
    · intro he
      simp [he]
    · intro hi
      simpa using hi.length_le
  | cons d ds ih =>
    simp only [subIn, Bool.or_eq_true, leadEq_iff, ih, List.infix_cons_iff]

/-! ## pySplit facts -/

theorem pySplit_cons_space {c : Char} {cs : List Char} (h : isPySpace c = true) :
    pySplit (c :: cs) = pySplit cs := by
  simp [pySplit, h]

theorem pySplit_one {c : Char} (h : isPySpace c = false) : pySplit [c] = [[c]] := by
  simp [pySplit, h]

theorem pySplit_cons_break {c c2 : Char} {cs2 : List Char}
    (h : isPySpace c = false) (h2 : isPySpace c2 = true) :
    pySplit (c :: c2 :: cs2) = [c] :: pySplit (c2 :: cs2) := by
  simp [pySplit, h, h2]

theorem pySplit_cons_match {c c2 : Char} {cs2 : List Char}
    (h : isPySpace c = false) (h2 : isPySpace c2 = false) :
    pySplit (c :: c2 :: cs2) =
      match pySplit (c2 :: cs2) with
      | [] => [[c]]
      | w :: ws => (c :: w) :: ws := by
  conv_lhs => rw [pySplit.eq_def]
  simp only [h, Bool.false_eq_true, if_false, h2]

theorem pySplit_cons_glue_nil {c c2 : Char} {cs2 : List Char}
    (h : isPySpace c = false) (h2 : isPySpace c2 = false)
    (hr : pySplit (c2 :: cs2) = []) :
    pySplit (c :: c2 :: cs2) = [[c]] := by
  rw [pySplit_cons_match h h2, hr]

theorem pySplit_cons_glue {c c2 : Char} {cs2 : List Char} {w0 : List Char} {ws : List (List Char)}
    (h : isPySpace c = false) (h2 : isPySpace c2 = false)
    (hr : pySplit (c2 :: cs2) = w0 :: ws) :
    pySplit (c :: c2 :: cs2) = (c :: w0) :: ws := by
  rw [pySplit_cons_match h h2, hr]

theorem pySplit_ne_nil {s : List Char} : ∀ w ∈ pySplit s, w ≠ [] := by
  induction s with
  | nil => simp [pySplit]
  | cons c cs ih =>
    intro w hw
    by_cases hc : isPySpace c = true
    · rw [pySplit_cons_space hc] at hw
      exact ih w hw
    · rw [Bool.not_eq_true] at hc
      cases cs with
      | nil =>
        rw [pySplit_one hc] at hw
        simp at hw
        simp [hw]
      | cons c2 cs2 =>
        by_cases hc2 : isPySpace c2 = true
        · rw [pySplit_cons_break hc hc2] at hw
          rcases List.mem_cons.mp hw with h | h
          · simp [h]
          · exact ih w h
        · rw [Bool.not_eq_true] at hc2
          rcases hr : pySplit (c2 :: cs2) with _ | ⟨w0, ws⟩
          · rw [pySplit_cons_glue_nil hc hc2 hr] at hw
            simp at hw
            simp [hw]
          · rw [pySplit_cons_glue hc hc2 hr] at hw
            rcases List.mem_cons.mp hw with h | h
            · simp [h]
            · exact ih w (by rw [hr]; exact List.mem_cons_of_mem _ h)

/-! ## Shape of chatbot_response -/

theorem chatbot_message_ne_nil (db : List Article) (input : List Char) :
    (chatbot_response db input).message ≠ [] := by
  simp only [chatbot_response]
  split
  · simp [emptyQueryMessage]
  split
  · simp [greetingMessage]
  split
  · simp [helpMessage]
  · simp only
    split
    · simp [notFoundMessage]
    · simp [foundMessage]

theorem chatbot_articles_le (db : List Article) (input : List Char) :
    (chatbot_response db input).articles.length ≤ 5 := by
  simp only [chatbot_response]
  split
  · simp
  split
  · simp
  split
  · simp
  · simp only
    exact List.length_take_le 5 _

theorem chatbot_suggestions_le (db : List Article) (input : List Char) :
    (chatbot_response db input).suggestions.length ≤ 5 := by
  simp only [chatbot_response]
  split
  · simp [emptyQuerySuggestions]
  split
  · simp [greetingSuggestions]
  split
  · simp [helpSuggestions]
  · simp only [generate_suggestions]
    exact le_trans (List.length_take_le 4 _) (by omega)

/-- C1 (counterexample): the greeting branch returns five suggestions, so the
claimed bound of at most four fails at the query "hello". -/
theorem C1_counterexample :
    4 < (chatbot_response [] ("hello".data)).suggestions.length := by decide

/-- C1 (amended): for every article store and every input, the response has a
non-empty message, at most 5 articles, and at most 5 suggestions (the
greeting and help branches return fixed five-element suggestion lists; the
other branches return at most four). -/
theorem C1_theorem (db : List Article) (input : List Char) :
    (chatbot_response db input).message ≠ [] ∧
      (chatbot_response db input).articles.length ≤ 5 ∧
      (chatbot_response db input).suggestions.length ≤ 5 :=
  ⟨chatbot_message_ne_nil db input, chatbot_articles_le db input,
    chatbot_suggestions_le db input⟩

/-- C6 (confirmed): on the empty query the response is the fixed
empty-query prompt ("Please type a question or topic — I'll find the most
relevant SRE resources for you."), with no articles and the fixed starter
suggestions; the result is the same for every article store, so no keyword
search and no ranking can influence it. -/
theorem C6_theorem (db : List Article) :
    chatbot_response db ("".data) =
      ⟨emptyQueryMessage, [], emptyQuerySuggestions⟩ := rfl

/-- C9 (confirmed): `chatbot_response` is a total function of the store
contents and the raw input string: it is defined by structural composition
of total functions (no partiality, no exceptions in the embedding), and for
every input it yields a response whose three fields exist, with a non-empty
message. -/
theorem C9_theorem (db : List Article) (input : List Char) :
    ∃ msg arts suggs, chatbot_response db input = ⟨msg, arts, suggs⟩ ∧ msg ≠ [] :=
  ⟨(chatbot_response db input).message, (chatbot_response db input).articles,
    (chatbot_response db input).suggestions, rfl, chatbot_message_ne_nil db input⟩

/-- C7 (confirmed): a domain tag appears in `classify_intent query` iff one
of its keywords occurs (case-insensitively) in the query; the output order
is the declaration order of INTENT_MAP (the output is a sublist of its
keys); and with no keyword hit at all the result is empty. -/
theorem C7_theorem (query : List Char) (tag : List Char) :
    (tag ∈ classify_intent query ↔
      ∃ kws, (tag, kws) ∈ INTENT_MAP ∧
        ∃ kw ∈ kws, subIn (pyLower kw) (pyLower query) = true) ∧
      (classify_intent query).Sublist (INTENT_MAP.map Prod.fst) ∧
      ((∀ p ∈ INTENT_MAP, ∀ kw ∈ p.2, subIn (pyLower kw) (pyLower query) = false) →
        classify_intent query = []) := by
  refine ⟨?_, ?_, ?_⟩
  · unfold classify_intent
    simp only [List.mem_map, List.mem_filter, List.any_eq_true]
    constructor
    · rintro ⟨⟨t, kws⟩, ⟨hmem, kw, hkw, hhit⟩, rfl⟩
      exact ⟨kws, hmem, kw, hkw, hhit⟩
    · rintro ⟨kws, hmem, kw, hkw, hhit⟩
      exact ⟨(tag, kws), ⟨hmem, kw, hkw, hhit⟩, rfl⟩
  · unfold classify_intent
    exact (List.filter_sublist _).map Prod.fst
  · intro hnone
    simp only [classify_intent]
    have : INTENT_MAP.filter
        (fun p => p.2.any (fun kw => subIn (pyLower kw) (pyLower query))) = [] := by
      rw [List.filter_eq_nil_iff]
      intro p hp
      simp only [List.any_eq_true, not_exists, not_and, Bool.not_eq_true]
      intro kw hkw
      exact hnone p hp kw hkw
    rw [this]
    rfl

/-! ## Deduplication lemmas -/

theorem dedupGo_sublist (seen : List Nat) (xs : List Article) :
    (dedupGo seen xs).Sublist xs := by
  induction xs generalizing seen with
  | nil => simp [dedupGo]
  | cons a rest ih =>
    simp only [dedupGo]
    split
    · exact (ih seen).trans (List.sublist_cons_self a rest)
    · exact (ih (a.id :: seen)).cons₂ a

theorem dedupGo_not_seen (seen : List Nat) (xs : List Article) :
    ∀ b ∈ dedupGo seen xs, b.id ∉ seen := by
  induction xs generalizing seen with
  | nil => simp [dedupGo]
  | cons a rest ih =>
    intro b hb
    simp only [dedupGo] at hb
    split at hb
    · exact ih seen b hb
    · rcases List.mem_cons.mp hb with h | h
      · subst h
        assumption
      · have := ih (a.id :: seen) b h
        intro hc
        exact this (List.mem_cons_of_mem _ hc)

theorem dedupGo_nodup (seen : List Nat) (xs : List Article) :
    ((dedupGo seen xs).map Article.id).Nodup := by
  induction xs generalizing seen with
  | nil => simp [dedupGo]
  | cons a rest ih =>
    simp only [dedupGo]
    split
    · exact ih seen
    · simp only [List.map_cons, List.nodup_cons]
      constructor
      · intro hc
        rcases List.mem_map.mp hc with ⟨b, hb, hid⟩
        exact dedupGo_not_seen _ _ b hb (by simp [hid])
      · exact ih (a.id :: seen)

theorem dedupGo_covers (seen : List Nat) (xs : List Article) :
    ∀ a ∈ xs, a.id ∈ seen ∨ ∃ b ∈ dedupGo seen xs, b.id = a.id := by
  induction xs generalizing seen with
  | nil => simp
  | cons x rest ih =>
    intro a ha
    rcases List.mem_cons.mp ha with h | h
    · subst h
      simp only [dedupGo]
      split
      · left
        assumption
      · right
        exact ⟨a, List.mem_cons_self _ _, rfl⟩
    · simp only [dedupGo]
      split
      · exact ih seen a h
      · rcases ih (x.id :: seen) a h with hs | ⟨b, hb, hid⟩
        · rcases List.mem_cons.mp hs with h1 | h1
          · right
            exact ⟨x, List.mem_cons_self _ _, h1.symm⟩
          · left
            exact h1
        · right
          exact ⟨b, List.mem_cons_of_mem _ hb, hid⟩

theorem dedupGo_first (seen : List Nat) (xs : List Article) :
    ∀ b ∈ dedupGo seen xs, xs.find? (fun x => x.id == b.id) = some b := by
  induction xs generalizing seen with
  | nil => simp [dedupGo]
  | cons a rest ih =>
    intro b hb
    simp only [dedupGo] at hb
    split at hb
    · rename_i hseen
      have hbn := dedupGo_not_seen seen rest b hb
      have hne : (a.id == b.id) = false := by
        simp only [beq_eq_false_iff_ne, ne_eq]
        intro hc
        exact hbn (hc ▸ hseen)
      rw [List.find?_cons_of_neg _ (by simp [hne]), ih seen b hb]
    · rcases List.mem_cons.mp hb with h | h
      · subst h
        rw [List.find?_cons_of_pos _ (by simp)]
      · have hbn := dedupGo_not_seen (a.id :: seen) rest b h
        have hne : (a.id == b.id) = false := by
          simp only [beq_eq_false_iff_ne, ne_eq]
          intro hc
          exact hbn (by simp [hc])
        rw [List.find?_cons_of_neg _ (by simp [hne]), ih (a.id :: seen) b h]

/-! ## The general branch of chatbot_response -/

theorem generalBranchB_spec {input : List Char} (h : generalBranchB input = true) :
    (pyStrip input).isEmpty = false ∧
      isGreetingB (pyLower (pyStrip input)) = false ∧
      isHelpB (pyLower (pyStrip input)) = false := by
  simp only [generalBranchB, Bool.and_eq_true, Bool.not_eq_true'] at h
  exact ⟨h.1.1, h.1.2, h.2⟩

theorem chatbot_general (db : List Article) (input : List Char)
    (h : generalBranchB input = true) :
    chatbot_response db input =
      ⟨(if ((dedupById (search_kb_articles db (pyStrip input) ++
              rank_articles (pyStrip input) (get_all_kb_articles db))).take 5).isEmpty then
          notFoundMessage (pyStrip input)
        else
          foundMessage
            ((dedupById (search_kb_articles db (pyStrip input) ++
              rank_articles (pyStrip input) (get_all_kb_articles db))).take 5).length
            (sourceLabel
              (((dedupById (search_kb_articles db (pyStrip input) ++
                rank_articles (pyStrip input) (get_all_kb_articles db))).take 5).map
                Article.source_type))
            (pyStrip input)),
        (dedupById (search_kb_articles db (pyStrip input) ++
          rank_articles (pyStrip input) (get_all_kb_articles db))).take 5,
        generate_suggestions (pyStrip input) (classify_intent (pyStrip input))
          ((dedupById (search_kb_articles db (pyStrip input) ++
            rank_articles (pyStrip input) (get_all_kb_articles db))).take 5)⟩ := by
  obtain ⟨h1, h2, h3⟩ := generalBranchB_spec h
  simp only [chatbot_response, h1, h2, h3, Bool.false_eq_true, if_false]

/-- C4 (confirmed): on the general branch the returned articles are the
keyword-search results followed by the fuzzy-ranked results, deduplicated by
id with the first occurrence (keyword-search position) winning, truncated to
five: the deduplicated list is a sublist of the concatenation, its ids are
pairwise distinct, every id of the concatenation survives, and every kept
article is the first occurrence of its id in the concatenation. -/
theorem C4_theorem (db : List Article) (input : List Char)
    (h : generalBranchB input = true) :
    ∀ xs, xs = search_kb_articles db (pyStrip input) ++
        rank_articles (pyStrip input) (get_all_kb_articles db) →
      (chatbot_response db input).articles = (dedupById xs).take 5 ∧
        (dedupById xs).Sublist xs ∧
        ((dedupById xs).map Article.id).Nodup ∧
        (∀ a ∈ xs, ∃ b ∈ dedupById xs, b.id = a.id) ∧
        (∀ b ∈ dedupById xs, xs.find? (fun x => x.id == b.id) = some b) := by
  intro xs hxs
  subst hxs
  refine ⟨?_, dedupGo_sublist _ _, dedupGo_nodup _ _, ?_, dedupGo_first _ _⟩
  · rw [chatbot_general db input h]
  · intro a ha
    rcases dedupGo_covers [] _ a ha with hs | h2
    · simp at hs
    · exact h2

/-- C4 witness data. -/
theorem C4_witness :
    generalBranchB ("kubernetes".data) = true ∧
      ((chatbot_response [artKube] ("kubernetes".data)).articles =
          (dedupById (search_kb_articles [artKube] (pyStrip ("kubernetes".data)) ++
            rank_articles (pyStrip ("kubernetes".data))
              (get_all_kb_articles [artKube]))).take 5 ∧
        (dedupById (search_kb_articles [artKube] (pyStrip ("kubernetes".data)) ++
            rank_articles (pyStrip ("kubernetes".data))
              (get_all_kb_articles [artKube]))).Sublist
          (search_kb_articles [artKube] (pyStrip ("kubernetes".data)) ++
            rank_articles (pyStrip ("kubernetes".data)) (get_all_kb_articles [artKube])) ∧
        (((dedupById (search_kb_articles [artKube] (pyStrip ("kubernetes".data)) ++
            rank_articles (pyStrip ("kubernetes".data))
              (get_all_kb_articles [artKube]))).map Article.id).Nodup) ∧
        (∀ a ∈ search_kb_articles [artKube] (pyStrip ("kubernetes".data)) ++
            rank_articles (pyStrip ("kubernetes".data)) (get_all_kb_articles [artKube]),
          ∃ b ∈ dedupById (search_kb_articles [artKube] (pyStrip ("kubernetes".data)) ++
            rank_articles (pyStrip ("kubernetes".data)) (get_all_kb_articles [artKube])),
            b.id = a.id) ∧
        (∀ b ∈ dedupById (search_kb_articles [artKube] (pyStrip ("kubernetes".data)) ++
            rank_articles (pyStrip ("kubernetes".data)) (get_all_kb_articles [artKube])),
          (search_kb_articles [artKube] (pyStrip ("kubernetes".data)) ++
            rank_articles (pyStrip ("kubernetes".data))
              (get_all_kb_articles [artKube])).find? (fun x => x.id == b.id) = some b)) :=
  ⟨by decide, C4_theorem [artKube] ("kubernetes".data) (by decide) _ rfl⟩

/-- C5 (counterexample): for the empty query the empty-input branch returns
fixed suggestions without the similarity filter, and the empty query is a
substring of every one of them, so the claimed filtering property fails;
moreover the greeting branch (query "hello") returns five suggestions,
violating the claimed bound of four. -/
theorem C5_counterexample :
    (∃ s ∈ (chatbot_response [] ("".data)).suggestions,
      subIn (pyLower (pyStrip ("".data))) (pyLower s) = true) ∧
      4 < (chatbot_response [] ("hi there friend".data)).suggestions.length := by decide

/-- C5 (amended): on the general-query branch the suggestion list has at
most 4 entries and none of them contains the stripped query as a
case-insensitive substring. -/
theorem C5_theorem (db : List Article) (input : List Char)
    (h : generalBranchB input = true) :
    (chatbot_response db input).suggestions.length ≤ 4 ∧
      ∀ s ∈ (chatbot_response db input).suggestions,
        subIn (pyLower (pyStrip input)) (pyLower s) = false := by
  rw [chatbot_general db input h]
  simp only [generate_suggestions]
  constructor
  · exact List.length_take_le 4 _
  · intro s hs
    have hs2 := List.take_subset _ _ hs
    rcases List.mem_filter.mp hs2 with ⟨_, hpred⟩
    simpa using hpred

/-- C5 witness data. -/
theorem C5_witness :
    generalBranchB ("kubernetes".data) = true ∧
      ((chatbot_response [artKube] ("kubernetes".data)).suggestions.length ≤ 4 ∧
        ∀ s ∈ (chatbot_response [artKube] ("kubernetes".data)).suggestions,
          subIn (pyLower (pyStrip ("kubernetes".data))) (pyLower s) = false) :=
  ⟨by decide, C5_theorem [artKube] ("kubernetes".data) (by decide)⟩

/-- C8 (confirmed): on the general branch with a non-empty result set, the
message is the found-message built from the article count and a label
determined by the source_type values present: both the internal marker
("confluence") and "external" present gives the mixed label, only
"confluence" gives the purely internal label, and only "external" gives the
purely external label. -/
theorem C8_theorem (db : List Article) (input : List Char)
    (h : generalBranchB input = true)
    (hne : (chatbot_response db input).articles ≠ []) :
    ∀ types, types = (chatbot_response db input).articles.map Article.source_type →
      ((("confluence".data ∈ types) ∧ ("external".data ∈ types)) →
        (chatbot_response db input).message =
          foundMessage (chatbot_response db input).articles.length
            ("Confluence pages and external resources".data) (pyStrip input)) ∧
        ((("confluence".data ∈ types) ∧ ("external".data ∉ types)) →
          (chatbot_response db input).message =
            foundMessage (chatbot_response db input).articles.length
              ("Confluence pages".data) (pyStrip input)) ∧
        ((("confluence".data ∉ types) ∧ ("external".data ∈ types)) →
          (chatbot_response db input).message =
            foundMessage (chatbot_response db input).articles.length
              ("external resources".data) (pyStrip input)) := by
  intro types htypes
  have hmain := chatbot_general db input h
  have harts : (chatbot_response db input).articles =
      (dedupById (search_kb_articles db (pyStrip input) ++
        rank_articles (pyStrip input) (get_all_kb_articles db))).take 5 := by
    rw [hmain]
  have hnotempty : ((dedupById (search_kb_articles db (pyStrip input) ++
      rank_articles (pyStrip input) (get_all_kb_articles db))).take 5).isEmpty = false := by
    rw [List.isEmpty_eq_false_iff_exists_mem]
    rcases List.exists_mem_of_ne_nil _ (by rw [harts] at hne; exact hne) with ⟨x, hx⟩
    exact ⟨x, hx⟩
  have hmsg : (chatbot_response db input).message =
      foundMessage (chatbot_response db input).articles.length
        (sourceLabel types) (pyStrip input) := by
    rw [hmain] at harts ⊢
    simp only [hnotempty, Bool.false_eq_true, if_false]
    rw [htypes, hmain]
  have hcontains : ∀ t : List Char, types.contains t = true ↔ t ∈ types := by
    intro t
    rw [List.contains_iff_exists_mem_beq]
    constructor
    · rintro ⟨x, hx, hbeq⟩
      rwa [show t = x from by simpa using hbeq.symm]
    · intro hmem
      exact ⟨t, hmem, by simp⟩
  refine ⟨?_, ?_, ?_⟩
  · rintro ⟨hc, he⟩
    rw [hmsg]
    unfold sourceLabel
    rw [if_pos (by rw [Bool.and_eq_true, hcontains, hcontains]; exact ⟨hc, he⟩)]
  · rintro ⟨hc, he⟩
    rw [hmsg]
    unfold sourceLabel
    rw [if_neg (by
        rw [Bool.and_eq_true, hcontains, hcontains]
        rintro ⟨_, hec⟩
        exact he hec),
      if_pos (by rw [hcontains]; exact hc)]
  · rintro ⟨hc, he⟩
    rw [hmsg]
    unfold sourceLabel
    rw [if_neg (by
        rw [Bool.and_eq_true, hcontains, hcontains]
        rintro ⟨hcc, _⟩
        exact hc hcc),
      if_neg (by rw [hcontains]; exact hc)]

/-- C8 witness data: a store with one Confluence and one external article on
the query topic exercises the mixed case. -/
theorem C8_witness :
    generalBranchB ("kubernetes".data) = true ∧
      (chatbot_response [artKube, artKubeExt] ("kubernetes".data)).articles ≠ [] ∧
      ((("confluence".data ∈
            (chatbot_response [artKube, artKubeExt] ("kubernetes".data)).articles.map
              Article.source_type) ∧
          ("external".data ∈
            (chatbot_response [artKube, artKubeExt] ("kubernetes".data)).articles.map
              Article.source_type)) →
        (chatbot_response [artKube, artKubeExt] ("kubernetes".data)).message =
          foundMessage
            (chatbot_response [artKube, artKubeExt] ("kubernetes".data)).articles.length
            ("Confluence pages and external resources".data)
            (pyStrip ("kubernetes".data))) := by
  refine ⟨by decide, by decide, ?_⟩
  exact (C8_theorem [artKube, artKubeExt] ("kubernetes".data) (by decide) (by decide)
    _ rfl).1

/-! ## Stable-sort lemmas for isortS -/

theorem insertD_perm (le : Frac × Article → Frac × Article → Bool) (x : Frac × Article)
    (l : List (Frac × Article)) : (insertD le x l).Perm (x :: l) := by
  induction l with
  | nil => simp [insertD]
  | cons y ys ih =>
    simp only [insertD]
    split
    · exact List.Perm.refl _
    · exact (ih.cons y).trans (List.Perm.swap x y ys)

theorem isortS_perm (le : Frac × Article → Frac × Article → Bool)
    (l : List (Frac × Article)) : (isortS le l).Perm l := by
  induction l with
  | nil => simp [isortS]
  | cons x xs ih =>
    exact (insertD_perm le x (isortS le xs)).trans (ih.cons x)

theorem insertD_pairwise {le : Frac × Article → Frac × Article → Bool}
    (htr : ∀ p q r, le p q = true → le q r = true → le p r = true)
    (hto : ∀ p q, le p q = true ∨ le q p = true)
    (x : Frac × Article) {l : List (Frac × Article)}
    (hl : l.Pairwise (fun p q => le p q = true)) :
    (insertD le x l).Pairwise (fun p q => le p q = true) := by
  induction l with
  | nil => simp [insertD]
  | cons y ys ih =>
    simp only [insertD]
    rcases List.pairwise_cons.mp hl with ⟨hy, hys⟩
    split
    · rename_i hxy
      refine List.pairwise_cons.mpr ⟨?_, hl⟩
      intro z hz
      rcases List.mem_cons.mp hz with h | h
      · subst h
        exact hxy
      · exact htr _ _ _ hxy (hy z h)
    · rename_i hxy
      have hyx : le y x = true := by
        rcases hto x y with h | h
        · exact absurd h hxy
        · exact h
      refine List.pairwise_cons.mpr ⟨?_, ih hys⟩
      intro z hz
      have hz2 := (insertD_perm le x ys).mem_iff.mp hz
      rcases List.mem_cons.mp hz2 with h | h
      · subst h
        exact hyx
      · exact hy z h

theorem isortS_pairwise {le : Frac × Article → Frac × Article → Bool}
    (htr : ∀ p q r, le p q = true → le q r = true → le p r = true)
    (hto : ∀ p q, le p q = true ∨ le q p = true)
    (l : List (Frac × Article)) :
    (isortS le l).Pairwise (fun p q => le p q = true) := by
  induction l with
  | nil => simp [isortS]
  | cons x xs ih =>
    exact insertD_pairwise htr hto x ih

theorem sublist_insertD (le : Frac × Article → Frac × Article → Bool) (x : Frac × Article)
    (l : List (Frac × Article)) : l.Sublist (insertD le x l) := by
  induction l with
  | nil => simp [insertD]
  | cons y ys ih =>
    simp only [insertD]
    split
    · exact List.sublist_cons_self x (y :: ys)
    · exact ih.cons₂ y

theorem pair_sublist_insertD {le : Frac × Article → Frac × Article → Bool}
    {x y : Frac × Article} (hxy : le x y = true) {l : List (Frac × Article)}
    (hy : y ∈ l) : [x, y].Sublist (insertD le x l) := by
  induction l with
  | nil => simp at hy
  | cons u us ih =>
    simp only [insertD]
    split
    · rename_i hxu
      exact (List.singleton_sublist.mpr hy).cons₂ x
    · rename_i hxu
      rcases List.mem_cons.mp hy with h | h
      · exact absurd (h ▸ hxy) hxu
      · exact (ih h).cons u

theorem isortS_stable_pair {le : Frac × Article → Frac × Article → Bool}
    {x y : Frac × Article} (hxy : le x y = true) :
    ∀ {l : List (Frac × Article)}, [x, y].Sublist l → [x, y].Sublist (isortS le l) := by
  intro l
  induction l with
  | nil =>
    intro h
    exact absurd (List.eq_nil_of_sublist_nil h) (by simp)
  | cons z l2 ih =>
    intro h
    cases h with
    | cons _ h2 =>
      exact ((ih h2).trans (sublist_insertD le z (isortS le l2)))
    | cons₂ _ h2 =>
      have hy : y ∈ isortS le l2 :=
        (isortS_perm le l2).mem_iff.mpr (List.singleton_sublist.mp h2)
      exact pair_sublist_insertD hxy hy

/-! ## Scoring against an empty field -/

theorem mainLoop_b_nil (a : List Char) (alo ahi blo bhi : Nat) :
    mainLoop a [] alo ahi blo bhi = ⟨fun _ => 0, alo, blo, 0⟩ := by
  unfold mainLoop
  generalize List.range' alo (ahi - alo) = l
  induction l with
  | nil => rfl
  | cons i l2 ih =>
    rw [List.foldl_cons]
    have hstep : rowStep a [] blo bhi ⟨fun _ => 0, alo, blo, 0⟩ i =
        ⟨fun _ => 0, alo, blo, 0⟩ := rfl
    rw [hstep, ih]

theorem extBack_self (a b : List Char) (alo blo bj bs : Nat) :
    extBack a b alo blo alo bj bs = (alo, bj, bs) := by
  unfold extBack
  cases alo with
  | zero => rfl
  | succ n =>
    simp only [extBackF]
    rw [if_neg]
    simp

theorem extFwd_bhi_zero (a b : List Char) (ahi bi bj bs : Nat) :
    extFwd a b ahi 0 bi bj bs = bs := by
  unfold extFwd
  generalize ahi - (bi + bs) = fuel
  cases fuel with
  | zero => rfl
  | succ n =>
    simp only [extFwdF]
    rw [if_neg]
    simp

theorem flm_b_nil (a : List Char) (alo ahi blo : Nat) :
    findLongestMatch a [] alo ahi blo 0 = (alo, blo, 0) := by
  simp only [findLongestMatch, mainLoop_b_nil, extBack_self, extFwd_bhi_zero]

theorem matchTotal_b_nil (a : List Char) (alo ahi blo : Nat) :
    matchTotal a [] alo ahi blo 0 = 0 := by
  unfold matchTotal
  cases hf : ahi - alo with
  | zero => rfl
  | succ n =>
    simp [matchTotalF, flm_b_nil]

theorem similarity_nil_right {q : List Char} (h : q ≠ []) : fval (similarity q []) = 0 := by
  unfold similarity
  rw [dif_neg (by simpa using h)]
  have hmt := matchTotal_b_nil q 0 q.length 0
  simp only [List.length_nil, hmt]
  norm_num [fval]

theorem fval_substr_foldl (tl : List Char) (ws : List (List Char)) (acc : Frac) :
    fval (ws.foldl
        (fun acc w => if subIn w tl then fadd acc ⟨3, 10, by omega⟩ else acc) acc) =
      fval acc + 3 / 10 * ((ws.filter (fun w => subIn w tl)).length : ℚ) := by
  induction ws generalizing acc with
  | nil => simp
  | cons w ws2 ih =>
    rw [List.foldl_cons]
    by_cases hw : subIn w tl = true
    · rw [if_pos hw, ih, fval_fadd]
      have h310 : fval (⟨3, 10, by omega⟩ : Frac) = 3 / 10 := by norm_num [fval]
      rw [h310]
      simp only [List.filter_cons, hw, if_true, List.length_cons]
      push_cast
      ring
    · rw [if_neg hw, ih]
      rw [Bool.not_eq_true] at hw
      simp [List.filter_cons, hw]

theorem fuzzy_nil_right {q : List Char} (h : q ≠ []) : fval (fuzzy_score q []) = 0 := by
  have hql : pyLower q ≠ [] := by simpa [pyLower] using h
  simp only [fuzzy_score]
  have hlow : pyLower ([] : List Char) = [] := rfl
  rw [hlow, fval_fmin, fval_fadd, fval_substr_foldl, similarity_nil_right hql, fval_fzero,
    fval_fone]
  have hfil : (pySplit (pyLower q)).filter (fun w => subIn w []) = [] := by
    rw [List.filter_eq_nil_iff]
    intro w hw
    have := pySplit_ne_nil w hw
    simp only [subIn, List.isEmpty_iff]
    simpa using this
  rw [hfil]
  norm_num

theorem fval_specField {q : List Char} (f : List Char) (h : q ≠ []) :
    fval (specFieldScore q f) = fval (fuzzy_score q f) := by
  unfold specFieldScore
  split
  · rename_i hf
    have hfnil : f = [] := by simpa using hf
    subst hfnil
    rw [fval_fzero, fuzzy_nil_right h]
  · rfl

theorem fval_specTotal {q : List Char} (a : Article) (h : q ≠ []) :
    fval (specTotal q a) = fval (totalScore q a) := by
  unfold specTotal totalScore
  simp only [fval_fadd, fval_fmul, fval_specField _ h]

theorem fltB_congr {x y y' : Frac} (h : fval y = fval y') : fltB x y = fltB x y' := by
  rw [Bool.eq_iff_iff, fltB_iff, fltB_iff, h]

theorem scoreDescB_trans (p q r : Frac × Article)
    (h1 : scoreDescB p q = true) (h2 : scoreDescB q r = true) : scoreDescB p r = true := by
  unfold scoreDescB at h1 h2 ⊢
  rw [fleB_iff] at h1 h2 ⊢
  exact le_trans h2 h1

theorem scoreDescB_total (p q : Frac × Article) :
    scoreDescB p q = true ∨ scoreDescB q p = true := by
  unfold scoreDescB
  rw [fleB_iff, fleB_iff]
  exact le_total (fval q.1) (fval p.1)

theorem fval_half : fval (⟨1, 2, by omega⟩ : Frac) = 1 / 2 := by norm_num [fval]

/-- C2 (counterexample): with the empty query, an article whose fields are
all empty scores 1.0 on every field (the sequence ratio of two empty strings
is 1.0), so it is admitted even though the claim's accounting — empty fields
contribute 0 — gives it a total of 0, which is below the threshold. -/
theorem C2_counterexample :
    fval (specTotal ("".data) artEmpty) = 0 ∧
      rank_articles ("".data) [artEmpty] = [artEmpty] := by
  constructor
  · have h : specTotal ("".data) artEmpty = ⟨0, 50, by omega⟩ := rfl
    rw [h]
    norm_num [fval]
  · decide

/-- C2 (amended): for every non-empty query, `rank_articles` returns exactly
the articles whose spec total — fuzzy score of title×2.0, tags×1.8,
description×1.5, category×1.2, an empty field contributing 0 — exceeds 0.5
(as a permutation of the filtered input), every returned article exceeds the
threshold, scores are non-increasing along the output, and equal-score
articles keep their input relative order. -/
theorem C2_theorem (query : List Char) (articles : List Article) (h : query ≠ []) :
    ((rank_articles query articles).Perm
        (articles.filter (fun a => fltB ⟨1, 2, by omega⟩ (specTotal query a)))) ∧
      (∀ a ∈ rank_articles query articles, 1 / 2 < fval (specTotal query a)) ∧
      ((rank_articles query articles).Pairwise
        (fun a b => fval (specTotal query b) ≤ fval (specTotal query a))) ∧
      (∀ x y, fval (specTotal query x) = fval (specTotal query y) →
        1 / 2 < fval (specTotal query x) →
        [x, y].Sublist articles → [x, y].Sublist (rank_articles query articles)) := by
  have hpf : ∀ p ∈ isortS scoreDescB
      (articles.map (fun a => (totalScore query a, a))),
      p.1 = totalScore query p.2 ∧ p.2 ∈ articles := by
    intro p hp
    have hp2 := (isortS_perm _ _).mem_iff.mp hp
    rcases List.mem_map.mp hp2 with ⟨a, ha, rfl⟩
    exact ⟨rfl, ha⟩
  have hOverSpec : ∀ a, overHalfB (totalScore query a, a) =
      fltB ⟨1, 2, by omega⟩ (specTotal query a) := by
    intro a
    unfold overHalfB
    exact fltB_congr (fval_specTotal a h).symm
  refine ⟨?_, ?_, ?_, ?_⟩
  · unfold rank_articles
    refine List.Perm.trans (List.Perm.map _ (List.Perm.filter _ (isortS_perm _ _))) ?_
    rw [List.filter_map, List.map_map]
    have hid : (Prod.snd ∘ fun a => (totalScore query a, a)) = id := rfl
    rw [hid, List.map_id]
    rw [List.filter_congr (fun a _ => by
      simpa using hOverSpec a)]
  · intro a ha
    unfold rank_articles at ha
    rcases List.mem_map.mp ha with ⟨p, hpfil, rfl⟩
    rcases List.mem_filter.mp hpfil with ⟨hpsort, hpover⟩
    obtain ⟨hp1, _⟩ := hpf p hpsort
    unfold overHalfB at hpover
    rw [fltB_iff, fval_half] at hpover
    rw [fval_specTotal _ h, ← hp1]
    exact hpover
  · unfold rank_articles
    rw [List.pairwise_map]
    have hsorted := isortS_pairwise scoreDescB_trans scoreDescB_total
      (articles.map (fun a => (totalScore query a, a)))
    have hfiltered : (List.filter overHalfB (isortS scoreDescB
        (articles.map (fun a => (totalScore query a, a))))).Pairwise
        (fun p q => scoreDescB p q = true) :=
      List.Pairwise.sublist (List.filter_sublist _) hsorted
    refine hfiltered.imp_of_mem ?_
    intro p q hp hq hle
    have hp1 := (hpf p ((List.filter_sublist _).subset hp)).1
    have hq1 := (hpf q ((List.filter_sublist _).subset hq)).1
    unfold scoreDescB at hle
    rw [fleB_iff] at hle
    rw [fval_specTotal _ h, fval_specTotal _ h, ← hp1, ← hq1]
    exact hle
  · intro x y hxy hhalf hsub
    unfold rank_articles
    have hxv := fval_specTotal (q := query) x h
    have hyv := fval_specTotal (q := query) y h
    have hle : scoreDescB (totalScore query x, x) (totalScore query y, y) = true := by
      unfold scoreDescB
      rw [fleB_iff]
      simp only
      rw [← hxv, ← hyv, hxy]
    have hpairs : [(totalScore query x, x), (totalScore query y, y)].Sublist
        (articles.map (fun a => (totalScore query a, a))) := by
      have := hsub.map (fun a => (totalScore query a, a))
      simpa using this
    have hsorted := isortS_stable_pair hle hpairs
    have hxover : overHalfB (totalScore query x, x) = true := by
      rw [hOverSpec, fltB_iff, fval_half]
      exact hhalf
    have hyover : overHalfB (totalScore query y, y) = true := by
      rw [hOverSpec, fltB_iff, fval_half, ← hxy]
      exact hhalf
    have hfil := hsorted.filter overHalfB
    rw [List.filter_cons_of_pos hxover, List.filter_cons_of_pos hyover,
      List.filter_nil] at hfil
    have := hfil.map Prod.snd
    simpa using this

/-- C2 witness data. -/
theorem C2_witness :
    ("kubernetes".data : List Char) ≠ [] ∧
      (((rank_articles ("kubernetes".data) [artKube]).Perm
          ([artKube].filter
            (fun a => fltB ⟨1, 2, by omega⟩ (specTotal ("kubernetes".data) a)))) ∧
        (∀ a ∈ rank_articles ("kubernetes".data) [artKube],
          1 / 2 < fval (specTotal ("kubernetes".data) a)) ∧
        ((rank_articles ("kubernetes".data) [artKube]).Pairwise
          (fun a b => fval (specTotal ("kubernetes".data) b) ≤
            fval (specTotal ("kubernetes".data) a))) ∧
        (∀ x y, fval (specTotal ("kubernetes".data) x) =
            fval (specTotal ("kubernetes".data) y) →
          1 / 2 < fval (specTotal ("kubernetes".data) x) →
          [x, y].Sublist [artKube] →
          [x, y].Sublist (rank_articles ("kubernetes".data) [artKube]))) :=
  ⟨by decide, C2_theorem ("kubernetes".data) [artKube] (by decide)⟩

/-- C10 (confirmed): the 0.5 admission threshold gates only the fuzzy-ranked
source.  For the query "zq" and a store holding only artZq, the article's
total weighted fuzzy score stays at or below 0.5 — it is absent from the
ranked output — yet the literal keyword search matches its description, and
the merge admits keyword results without any score check, so the article is
returned. -/
theorem C10_theorem :
    fval (totalScore ("zq".data) artZq) ≤ 1 / 2 ∧
      artZq ∉ rank_articles ("zq".data) (get_all_kb_articles [artZq]) ∧
      (chatbot_response [artZq] ("zq".data)).articles = [artZq] := by
  refine ⟨?_, by decide, by decide⟩
  have hb : fltB ⟨1, 2, by omega⟩ (totalScore ("zq".data) artZq) = false := by decide
  by_contra hc
  push_neg at hc
  have : fltB ⟨1, 2, by omega⟩ (totalScore ("zq".data) artZq) = true := by
    rw [fltB_iff, fval_half]
    exact hc
  rw [this] at hb
  exact Bool.noConfusion hb

/-! ## Range of the similarity ratio -/

theorem matchTotalF_le (a b : List Char) :
    ∀ fuel alo ahi blo bhi,
      matchTotalF a b fuel alo ahi blo bhi ≤ ahi - alo ∧
        matchTotalF a b fuel alo ahi blo bhi ≤ bhi - blo := by
  intro fuel
  induction fuel with
  | zero =>
    intro alo ahi blo bhi
    exact ⟨Nat.zero_le _, Nat.zero_le _⟩
  | succ n ih =>
    intro alo ahi blo bhi
    simp only [matchTotalF]
    split
    · exact ⟨Nat.zero_le _, Nat.zero_le _⟩
    · rename_i hne
      have hb := flm_bounds a b alo ahi blo bhi
      have h1 := hb.1
      have h2 := hb.2.1
      have h3 := hb.2.2 hne
      have ihl := ih alo (findLongestMatch a b alo ahi blo bhi).1 blo
        (findLongestMatch a b alo ahi blo bhi).2.1
      have ihr := ih ((findLongestMatch a b alo ahi blo bhi).1 +
          (findLongestMatch a b alo ahi blo bhi).2.2) ahi
        ((findLongestMatch a b alo ahi blo bhi).2.1 +
          (findLongestMatch a b alo ahi blo bhi).2.2) bhi
      constructor
      · have := ihl.1
        have := ihr.1
        omega
      · have := ihl.2
        have := ihr.2
        omega

theorem similarity_range (a b : List Char) :
    0 ≤ fval (similarity a b) ∧ fval (similarity a b) ≤ 1 := by
  unfold similarity
  split
  · rw [fval_fone]
    norm_num
  · rename_i hne
    have hpos : (0:ℚ) < ((a.length + b.length : Nat) : ℚ) := by
      exact_mod_cast Nat.pos_of_ne_zero hne
    have hM := matchTotalF_le a b (a.length - 0) 0 a.length 0 b.length
    constructor
    · unfold fval
      positivity
    · unfold fval
      rw [div_le_one (by exact_mod_cast hpos)]
      have h1 := hM.1
      have h2 := hM.2
      have hsum : 2 * matchTotalF a b (a.length - 0) 0 a.length 0 b.length ≤
          a.length + b.length := by omega
      unfold matchTotal
      push_cast
      exact_mod_cast hsum

theorem b2j_not_mem {b : List Char} {c : Char} (hc : c ∉ b) : b2j b c = [] := by
  unfold b2j
  split
  · rfl
  · unfold indicesOf
    rw [List.filter_eq_nil_iff]
    intro j hj
    simp only [decide_eq_true_eq]
    intro heq
    rw [List.mem_range] at hj
    rw [List.getD_eq_getElem b cdef hj] at heq
    exact hc (heq ▸ List.getElem_mem hj)

theorem mainLoop_disjoint (a b : List Char) (alo ahi blo bhi : Nat)
    (hlen : ahi ≤ a.length) (hdisj : ∀ c ∈ a, c ∉ b) :
    mainLoop a b alo ahi blo bhi = ⟨fun _ => 0, alo, blo, 0⟩ := by
  unfold mainLoop
  refine List.foldlRecOn (motive := fun s => s = (⟨fun _ => 0, alo, blo, 0⟩ : FS)) _ _ _ rfl ?_
  intro s hs i hi
  subst hs
  have hilt : i < a.length := by
    rcases List.mem_range'_1.mp hi with ⟨_, h2⟩
    omega
  have hmem : a.getD i cdef ∈ a := by
    rw [List.getD_eq_getElem a cdef hilt]
    exact List.getElem_mem hilt
  unfold rowStep rowJs
  rw [b2j_not_mem (hdisj _ hmem)]
  rfl

theorem flm_disjoint (a b : List Char) (alo ahi blo bhi : Nat)
    (hlen_a : ahi ≤ a.length) (hlen_b : bhi ≤ b.length) (hdisj : ∀ c ∈ a, c ∉ b) :
    findLongestMatch a b alo ahi blo bhi = (alo, blo, 0) := by
  simp only [findLongestMatch, mainLoop_disjoint a b alo ahi blo bhi hlen_a hdisj,
    extBack_self]
  have hfwd : extFwd a b ahi bhi alo blo 0 = 0 := by
    unfold extFwd
    generalize ahi - (alo + 0) = fuel
    cases fuel with
    | zero => rfl
    | succ n =>
      simp only [extFwdF]
      rw [if_neg]
      rintro ⟨hA, hB, hC⟩
      have hia : alo + 0 < a.length := by omega
      have hib : blo + 0 < b.length := by omega
      have h1 : a.getD (alo + 0) cdef ∈ a := by
        rw [List.getD_eq_getElem a cdef hia]
        exact List.getElem_mem hia
      have h2 : b.getD (blo + 0) cdef ∈ b := by
        rw [List.getD_eq_getElem b cdef hib]
        exact List.getElem_mem hib
      exact hdisj _ h1 (hC ▸ h2)
  rw [hfwd]

theorem matchTotal_disjoint (a b : List Char) (alo ahi blo bhi : Nat)
    (hlen_a : ahi ≤ a.length) (hlen_b : bhi ≤ b.length) (hdisj : ∀ c ∈ a, c ∉ b) :
    matchTotal a b alo ahi blo bhi = 0 := by
  unfold matchTotal
  cases hf : ahi - alo with
  | zero => rfl
  | succ n =>
    simp [matchTotalF, flm_disjoint a b alo ahi blo bhi hlen_a hlen_b hdisj]

theorem similarity_disjoint {a b : List Char} (hdisj : ∀ c ∈ a, c ∉ b)
    (hne : a.length + b.length ≠ 0) : fval (similarity a b) = 0 := by
  unfold similarity
  rw [dif_neg hne]
  rw [matchTotal_disjoint a b 0 a.length 0 b.length (le_refl _) (le_refl _) hdisj]
  norm_num [fval]

/-! ## Row values of the main loop: membership infrastructure -/

theorem rowJs_sorted (b : List Char) (blo bhi : Nat) (c : Char) :
    (rowJs b blo bhi c).Pairwise (· < ·) := by
  unfold rowJs
  have hb2j : (b2j b c).Pairwise (· < ·) := by
    unfold b2j
    split
    · simp
    · unfold indicesOf
      exact (List.pairwise_lt_range b.length).filter _
  exact (List.Pairwise.sublist (List.takeWhile_sublist _) hb2j).filter _

theorem mem_b2j {b : List Char} {c : Char} {j : Nat} :
    j ∈ b2j b c ↔ popularB b c = false ∧ j < b.length ∧ b.getD j cdef = c := by
  unfold b2j
  split
  · rename_i hpop
    simp [hpop]
  · rename_i hpop
    unfold indicesOf
    rw [List.mem_filter, List.mem_range]
    simp only [decide_eq_true_eq]
    constructor
    · rintro ⟨h1, h2⟩
      exact ⟨by simpa using hpop, h1, h2⟩
    · rintro ⟨_, h1, h2⟩
      exact ⟨h1, h2⟩

theorem mem_takeWhile_sorted {l : List Nat} {bound j : Nat}
    (hs : l.Pairwise (· < ·)) (hj : j ∈ l) (hlt : j < bound) :
    j ∈ l.takeWhile (fun x => decide (x < bound)) := by
  induction l with
  | nil => simp at hj
  | cons y ys ih =>
    rcases List.pairwise_cons.mp hs with ⟨hy, hys⟩
    rcases List.mem_cons.mp hj with h | h
    · subst h
      rw [List.takeWhile_cons_of_pos (by simpa using hlt)]
      exact List.mem_cons_self _ _
    · have hyb : y < bound := lt_trans (hy j h) hlt
      rw [List.takeWhile_cons_of_pos (by simpa using hyb)]
      exact List.mem_cons_of_mem _ (ih hys h)

theorem mem_rowJs_iff {b : List Char} {blo bhi : Nat} {c : Char} {j : Nat} :
    j ∈ rowJs b blo bhi c ↔ blo ≤ j ∧ j < bhi ∧ j ∈ b2j b c := by
  constructor
  · exact mem_rowJs
  · rintro ⟨h1, h2, h3⟩
    unfold rowJs
    rw [List.mem_filter]
    have hsor : (b2j b c).Pairwise (· < ·) := by
      unfold b2j
      split
      · simp
      · unfold indicesOf
        exact (List.pairwise_lt_range b.length).filter _
    exact ⟨mem_takeWhile_sorted hsor h3 h2, by simpa using h1⟩

/-- Membership in a row of the main loop, from the stored facts. -/
theorem mem_rowJs_of {b : List Char} {blo bhi : Nat} {c : Char} {j : Nat}
    (hpop : popularB b c = false) (hlen : j < b.length) (hchar : b.getD j cdef = c)
    (h1 : blo ≤ j) (h2 : j < bhi) : j ∈ rowJs b blo bhi c :=
  mem_rowJs_iff.mpr ⟨h1, h2, mem_b2j.mpr ⟨hpop, hlen, hchar⟩⟩

theorem mV_zero (a b : List Char) (alo blo bhi j : Nat) :
    mV a b alo blo bhi 0 j =
      if j ∈ rowJs b blo bhi (a.getD alo cdef) then 1 else 0 := rfl

theorem mV_succ (a b : List Char) (alo blo bhi r j : Nat) :
    mV a b alo blo bhi (r + 1) j =
      if j ∈ rowJs b blo bhi (a.getD (alo + (r + 1)) cdef) then
        (if j = 0 then 0 else mV a b alo blo bhi r (j - 1)) + 1
      else 0 := rfl

theorem mV_eq_zero_of_not_mem {a b : List Char} {alo blo bhi : Nat} {r j : Nat}
    (h : j ∉ rowJs b blo bhi (a.getD (alo + r) cdef)) :
    mV a b alo blo bhi r j = 0 := by
  cases r with
  | zero =>
    have h2 : j ∉ rowJs b blo bhi (a.getD alo cdef) := h
    rw [mV_zero, if_neg h2]
  | succ n =>
    rw [mV_succ, if_neg h]

/-! ## Row characterization of the dictionary -/

theorem stepJ_j2 (i : Nat) (old : Nat → Nat) (s : FS) (j : Nat) :
    (stepJ i old s j).j2 = fun x => if x = j then kOf old j else s.j2 x := by
  simp only [stepJ]
  split <;> rfl

theorem stepJ_bs_mono (i : Nat) (old : Nat → Nat) (s : FS) (j : Nat) :
    s.bs ≤ (stepJ i old s j).bs := by
  simp only [stepJ]
  split
  · rename_i hlt
    exact le_of_lt hlt
  · exact le_refl _

theorem foldl_stepJ_j2 (i : Nat) (old : Nat → Nat) :
    ∀ (l : List Nat) (s0 : FS),
      (l.foldl (stepJ i old) s0).j2 =
        fun x => if x ∈ l then kOf old x else s0.j2 x := by
  intro l
  induction l with
  | nil =>
    intro s0
    funext x
    simp
  | cons j rest ih =>
    intro s0
    rw [List.foldl_cons, ih]
    funext x
    rw [stepJ_j2]
    by_cases hx : x ∈ rest
    · simp [hx]
    · by_cases hxj : x = j
      · subst hxj
        simp [hx]
      · simp [hx, hxj]

theorem rowStep_j2 (a b : List Char) (blo bhi : Nat) (s : FS) (i : Nat) :
    (rowStep a b blo bhi s i).j2 =
      fun x => if x ∈ rowJs b blo bhi (a.getD i cdef) then kOf s.j2 x else 0 := by
  unfold rowStep
  rw [foldl_stepJ_j2]

theorem pLoop_j2 (a b : List Char) (alo blo bhi : Nat) :
    ∀ r, ((List.range' alo (r + 1)).foldl (rowStep a b blo bhi)
        ⟨fun _ => 0, alo, blo, 0⟩).j2 = mV a b alo blo bhi r := by
  intro r
  induction r with
  | zero =>
    have h1 : List.range' alo 1 = [alo] := rfl
    rw [h1]
    simp only [List.foldl_cons, List.foldl_nil]
    rw [rowStep_j2]
    funext x
    rw [mV_zero]
    by_cases hx : x ∈ rowJs b blo bhi (a.getD alo cdef)
    · rw [if_pos hx, if_pos hx]
      unfold kOf
      split <;> rfl
    · rw [if_neg hx, if_neg hx]
  | succ n ih =>
    have h1 : List.range' alo (n + 2) = List.range' alo (n + 1) ++ [alo + (n + 1)] := by
      simpa using @List.range'_concat 1 alo (n + 1)
    rw [h1, List.foldl_append]
    simp only [List.foldl_cons, List.foldl_nil]
    rw [rowStep_j2, ih]
    funext x
    rw [mV_succ]
    by_cases hx : x ∈ rowJs b blo bhi (a.getD (alo + (n + 1)) cdef)
    · rw [if_pos hx, if_pos hx]
      rfl
    · rw [if_neg hx, if_neg hx]

/-! ## Transfer lemmas for identical windows (b = a, blo = alo, bhi = ahi) -/

theorem mem_rowJs_diag {a : List Char} {alo ahi : Nat} {c : Char} {j : Nat}
    (hj : j ∈ rowJs a alo ahi c) : j ∈ rowJs a alo ahi (a.getD j cdef) := by
  rcases mem_rowJs_iff.mp hj with ⟨h1, h2, h3⟩
  rcases mem_b2j.mp h3 with ⟨hpop, hlen, hchar⟩
  exact mem_rowJs_of (hchar ▸ hpop) hlen rfl h1 h2

theorem mem_rowJs_samechar {a : List Char} {alo ahi : Nat} {c : Char} {j i2 : Nat}
    (hj : j ∈ rowJs a alo ahi c) (hchar2 : a.getD i2 cdef = a.getD j cdef)
    (h1 : alo ≤ i2) (h2 : i2 < ahi) (hl : i2 < a.length) : i2 ∈ rowJs a alo ahi c := by
  rcases mem_rowJs_iff.mp hj with ⟨_, _, h3⟩
  rcases mem_b2j.mp h3 with ⟨hpop, _, hchar⟩
  exact mem_rowJs_of hpop hl (hchar2.trans hchar) h1 h2

/-- A chain value at a key left of its row diagonal is bounded by the value
on that key's own diagonal row. -/
theorem mV_le_diag_col (a : List Char) (alo ahi : Nat) :
    ∀ r j, j < alo + r → mV a a alo alo ahi r j ≤ mV a a alo alo ahi (j - alo) j := by
  intro r
  induction r with
  | zero =>
    intro j hj
    have hnm : j ∉ rowJs a alo ahi (a.getD (alo + 0) cdef) := by
      intro hmem
      have := (mem_rowJs_iff.mp hmem).1
      omega
    rw [mV_eq_zero_of_not_mem hnm]
    exact Nat.zero_le _
  | succ n ih =>
    intro j hj
    by_cases hmem : j ∈ rowJs a alo ahi (a.getD (alo + (n + 1)) cdef)
    · rcases mem_rowJs_iff.mp hmem with ⟨hjlo, hjhi, h3⟩
      have hdiag := mem_rowJs_diag hmem
      rw [mV_succ, if_pos hmem]
      rcases Nat.lt_or_ge alo j with halo | halo
      · -- j > alo: both sides are successor rows
        have hj0 : j ≠ 0 := by omega
        rw [if_neg hj0]
        have hsplit : j - alo = (j - alo - 1) + 1 := by omega
        rw [hsplit, mV_succ]
        have harith : alo + (j - alo - 1 + 1) = j := by omega
        rw [harith, if_pos hdiag, if_neg hj0]
        have hIH := ih (j - 1) (by omega)
        have harith2 : j - 1 - alo = j - alo - 1 := by omega
        rw [harith2] at hIH
        omega
      · -- j = alo
        have hja : j - alo = 0 := by omega
        rw [hja]
        have hj0eq : alo + 0 = j := by omega
        have hmem0 : j ∈ rowJs a alo ahi (a.getD (alo + 0) cdef) := by
          rw [hj0eq]
          exact hdiag
        have hz : mV a a alo alo ahi 0 j = 1 := by
          rw [mV_zero, if_pos (show j ∈ rowJs a alo ahi (a.getD alo cdef) from hmem0)]
        rw [hz]
        by_cases hj0 : j = 0
        · rw [if_pos hj0]
        · rw [if_neg hj0]
          have hnm : j - 1 ∉ rowJs a alo ahi (a.getD (alo + n) cdef) := by
            intro hmem2
            have := (mem_rowJs_iff.mp hmem2).1
            omega
          rw [mV_eq_zero_of_not_mem hnm]
    · rw [mV_eq_zero_of_not_mem hmem]
      exact Nat.zero_le _

/-- A chain value at a key right of its row diagonal is bounded by the value
at the diagonal key of the same row. -/
theorem mV_le_diag_row (a : List Char) (alo ahi : Nat) :
    ∀ r j, alo + r < j → mV a a alo alo ahi r j ≤ mV a a alo alo ahi r (alo + r) := by
  intro r
  induction r with
  | zero =>
    intro j hj
    by_cases hmem : j ∈ rowJs a alo ahi (a.getD (alo + 0) cdef)
    · rcases mem_rowJs_iff.mp hmem with ⟨hjlo, hjhi, h3⟩
      rcases mem_b2j.mp h3 with ⟨hpop, hjlen, hchar⟩
      have hdmem : alo + 0 ∈ rowJs a alo ahi (a.getD (alo + 0) cdef) :=
        mem_rowJs_samechar hmem (by rw [hchar]) (by omega) (by omega) (by omega)
      have h1 : mV a a alo alo ahi 0 j = 1 := by
        rw [mV_zero, if_pos (show j ∈ rowJs a alo ahi (a.getD alo cdef) from hmem)]
      have h2 : mV a a alo alo ahi 0 (alo + 0) = 1 := by
        rw [mV_zero,
          if_pos (show alo + 0 ∈ rowJs a alo ahi (a.getD alo cdef) from hdmem)]
      omega
    · rw [mV_eq_zero_of_not_mem hmem]
      exact Nat.zero_le _
  | succ n ih =>
    intro j hj
    by_cases hmem : j ∈ rowJs a alo ahi (a.getD (alo + (n + 1)) cdef)
    · rcases mem_rowJs_iff.mp hmem with ⟨hjlo, hjhi, h3⟩
      rcases mem_b2j.mp h3 with ⟨hpop, hjlen, hchar⟩
      have hdmem : alo + (n + 1) ∈ rowJs a alo ahi (a.getD (alo + (n + 1)) cdef) :=
        mem_rowJs_samechar hmem (by rw [hchar]) (by omega) (by omega) (by omega)
      rw [mV_succ, if_pos hmem, mV_succ, if_pos hdmem]
      have hj0 : j ≠ 0 := by omega
      have hd0 : alo + (n + 1) ≠ 0 := by omega
      rw [if_neg hj0, if_neg hd0]
      have hIH := ih (j - 1) (by omega)
      have harith : alo + (n + 1) - 1 = alo + n := by omega
      rw [harith]
      omega
    · rw [mV_eq_zero_of_not_mem hmem]
      exact Nat.zero_le _

/-! ## The best match stays on the diagonal for identical windows -/

theorem stepJ_bs_ge_k (i : Nat) (old : Nat → Nat) (s : FS) (j : Nat) :
    kOf old j ≤ (stepJ i old s j).bs := by
  simp only [stepJ]
  split
  · exact le_refl _
  · rename_i h
    exact Nat.not_lt.mp h

theorem stepJ_best_keep {i : Nat} {old : Nat → Nat} {s : FS} {j : Nat}
    (h : ¬ s.bs < kOf old j) :
    (stepJ i old s j).bi = s.bi ∧ (stepJ i old s j).bj = s.bj ∧
      (stepJ i old s j).bs = s.bs := by
  simp only [stepJ]
  rw [if_neg h]
  exact ⟨rfl, rfl, rfl⟩

theorem stepJ_best_update {i : Nat} {old : Nat → Nat} {s : FS} {j : Nat}
    (h : s.bs < kOf old j) :
    (stepJ i old s j).bi = i + 1 - kOf old j ∧
      (stepJ i old s j).bj = j + 1 - kOf old j ∧
      (stepJ i old s j).bs = kOf old j := by
  simp only [stepJ]
  rw [if_pos h]
  exact ⟨rfl, rfl, rfl⟩

/-- Processing one row of the main loop over an identical window keeps the
best match on the diagonal and caps every chain value of the row by the best
size. -/
theorem innerDiag (a : List Char) (alo ahi r : Nat) (old : Nat → Nat)
    (hold : ∀ j ∈ rowJs a alo ahi (a.getD (alo + r) cdef),
      kOf old j = mV a a alo alo ahi r j) :
    ∀ (l done : List Nat) (s : FS),
      rowJs a alo ahi (a.getD (alo + r) cdef) = done ++ l →
      s.bi = s.bj →
      (∀ r2 < r, ∀ j2, mV a a alo alo ahi r2 j2 ≤ s.bs) →
      (∀ x ∈ rowJs a alo ahi (a.getD (alo + r) cdef),
        (∀ y ∈ l, x < y) → mV a a alo alo ahi r x ≤ s.bs) →
      ((l.foldl (stepJ (alo + r) old) s).bi = (l.foldl (stepJ (alo + r) old) s).bj ∧
        (∀ r2 < r, ∀ j2, mV a a alo alo ahi r2 j2 ≤ (l.foldl (stepJ (alo + r) old) s).bs) ∧
        (∀ x ∈ rowJs a alo ahi (a.getD (alo + r) cdef),
          mV a a alo alo ahi r x ≤ (l.foldl (stepJ (alo + r) old) s).bs)) := by
  intro l
  induction l with
  | nil =>
    intro done s hsplit hdiag hprev hcur
    simp only [List.foldl_nil]
    exact ⟨hdiag, hprev, fun x hx => hcur x hx (by simp)⟩
  | cons j l2 ih =>
    intro done s hsplit hdiag hprev hcur
    rw [List.foldl_cons]
    have hjmem : j ∈ rowJs a alo ahi (a.getD (alo + r) cdef) := by
      rw [hsplit]
      exact List.mem_append_right done (List.mem_cons_self j l2)
    have hsor := rowJs_sorted a alo ahi (a.getD (alo + r) cdef)
    rw [hsplit] at hsor
    rcases List.pairwise_append.mp hsor with ⟨hsdone, hscons, hcross⟩
    rcases List.pairwise_cons.mp hscons with ⟨hjl2, hsl2⟩
    have hk := hold j hjmem
    rcases mem_rowJs_iff.mp hjmem with ⟨hjlo, hjhi, hjb2j⟩
    rcases mem_b2j.mp hjb2j with ⟨hjpop, hjlen, hjchar⟩
    have hdiag1 : (stepJ (alo + r) old s j).bi = (stepJ (alo + r) old s j).bj := by
      by_cases hup : s.bs < kOf old j
      · rcases lt_trichotomy j (alo + r) with hlt | heq | hgt
        · exfalso
          have h1 : mV a a alo alo ahi r j ≤ mV a a alo alo ahi (j - alo) j :=
            mV_le_diag_col a alo ahi r j hlt
          have h2 : mV a a alo alo ahi (j - alo) j ≤ s.bs :=
            hprev (j - alo) (by omega) j
          rw [hk] at hup
          omega
        · obtain ⟨hb1, hb2, _⟩ := stepJ_best_update hup
          rw [hb1, hb2, heq]
        · exfalso
          have h1 : mV a a alo alo ahi r j ≤ mV a a alo alo ahi r (alo + r) :=
            mV_le_diag_row a alo ahi r j hgt
          have hdm : alo + r ∈ rowJs a alo ahi (a.getD (alo + r) cdef) :=
            mem_rowJs_samechar hjmem (by rw [hjchar]) (by omega) (by omega) (by omega)
          have hguard : ∀ y ∈ j :: l2, alo + r < y := by
            intro y hy
            rcases List.mem_cons.mp hy with h | h
            · omega
            · exact lt_trans hgt (hjl2 y h)
          have h2 := hcur (alo + r) hdm hguard
          rw [hk] at hup
          omega
      · obtain ⟨hb1, hb2, _⟩ := stepJ_best_keep hup
        rw [hb1, hb2]
        exact hdiag
    have hmono := stepJ_bs_mono (alo + r) old s j
    refine ih (done ++ [j]) (stepJ (alo + r) old s j) ?_ hdiag1 ?_ ?_
    · rw [hsplit, List.append_assoc]
      rfl
    · intro r2 hr2 j2
      exact le_trans (hprev r2 hr2 j2) hmono
    · intro x hx hguard
      by_cases hxj : x = j
      · subst hxj
        rw [← hk]
        exact stepJ_bs_ge_k (alo + r) old s x
      · have hxlt : x < j := by
          have hx2 : x ∈ done ++ j :: l2 := by
            rw [← hsplit]
            exact hx
          rcases List.mem_append.mp hx2 with h | h
          · exact hcross x h j (List.mem_cons_self j l2)
          · rcases List.mem_cons.mp h with h2 | h2
            · exact absurd h2 hxj
            · exact absurd (hguard x h2) (lt_irrefl x)
        have hguard0 : ∀ y ∈ j :: l2, x < y := by
          intro y hy
          rcases List.mem_cons.mp hy with h | h
          · omega
          · exact lt_trans hxlt (hjl2 y h)
        exact le_trans (hcur x hx hguard0) hmono

/-- One outer-loop row over an identical window, packaged: diagonality and the
bound on all chain values up to the current row are preserved. -/
theorem rowStepDiag (a : List Char) (alo ahi r : Nat) (s : FS)
    (hold : ∀ j ∈ rowJs a alo ahi (a.getD (alo + r) cdef),
      kOf s.j2 j = mV a a alo alo ahi r j)
    (hdiag : s.bi = s.bj)
    (hprev : ∀ r2 < r, ∀ j2, mV a a alo alo ahi r2 j2 ≤ s.bs) :
    (rowStep a a alo ahi s (alo + r)).bi = (rowStep a a alo ahi s (alo + r)).bj ∧
      ∀ r2 ≤ r, ∀ j2, mV a a alo alo ahi r2 j2 ≤ (rowStep a a alo ahi s (alo + r)).bs := by
  unfold rowStep
  have h := innerDiag a alo ahi r s.j2 hold (rowJs a alo ahi (a.getD (alo + r) cdef)) []
    ⟨fun _ => 0, s.bi, s.bj, s.bs⟩ rfl hdiag hprev
    (fun x hx hg => absurd (hg x hx) (lt_irrefl x))
  refine ⟨h.1, ?_⟩
  intro r2 hr2 j2
  rcases Nat.lt_or_ge r2 r with h2 | h2
  · exact h.2.1 r2 h2 j2
  · have hr2e : r2 = r := by omega
    subst hr2e
    by_cases hmem : j2 ∈ rowJs a alo ahi (a.getD (alo + r2) cdef)
    · exact h.2.2 j2 hmem
    · rw [mV_eq_zero_of_not_mem hmem]
      exact Nat.zero_le _

/-- After `r + 1` rows of the main loop over an identical window, the best
match is diagonal and dominates every chain value of the processed rows. -/
theorem pLoopDiag (a : List Char) (alo ahi : Nat) :
    ∀ r,
      ((List.range' alo (r + 1)).foldl (rowStep a a alo ahi) ⟨fun _ => 0, alo, alo, 0⟩).bi =
        ((List.range' alo (r + 1)).foldl (rowStep a a alo ahi) ⟨fun _ => 0, alo, alo, 0⟩).bj ∧
      ∀ r2 ≤ r, ∀ j2, mV a a alo alo ahi r2 j2 ≤
        ((List.range' alo (r + 1)).foldl (rowStep a a alo ahi) ⟨fun _ => 0, alo, alo, 0⟩).bs := by
  intro r
  induction r with
  | zero =>
    have h1 : List.range' alo 1 = [alo] := rfl
    rw [h1]
    simp only [List.foldl_cons, List.foldl_nil]
    have hold0 : ∀ j ∈ rowJs a alo ahi (a.getD (alo + 0) cdef),
        kOf (⟨fun _ => 0, alo, alo, 0⟩ : FS).j2 j = mV a a alo alo ahi 0 j := by
      intro j hj
      rw [mV_zero, if_pos (show j ∈ rowJs a alo ahi (a.getD alo cdef) from hj)]
      simp [kOf]
    exact rowStepDiag a alo ahi 0 ⟨fun _ => 0, alo, alo, 0⟩ hold0 rfl
      (fun r2 h2 _ => absurd h2 (Nat.not_lt_zero r2))
  | succ r ih =>
    have h1 : List.range' alo (r + 1 + 1) = List.range' alo (r + 1) ++ [alo + (r + 1)] := by
      simpa using @List.range'_concat 1 alo (r + 1)
    rw [h1, List.foldl_append]
    simp only [List.foldl_cons, List.foldl_nil]
    set S := (List.range' alo (r + 1)).foldl (rowStep a a alo ahi)
      (⟨fun _ => 0, alo, alo, 0⟩ : FS) with hS
    have hj2 : S.j2 = mV a a alo alo ahi r := pLoop_j2 a a alo alo ahi r
    have hold : ∀ j ∈ rowJs a alo ahi (a.getD (alo + (r + 1)) cdef),
        kOf S.j2 j = mV a a alo alo ahi (r + 1) j := by
      intro j hj
      rw [hj2, mV_succ, if_pos hj]
      rfl
    exact rowStepDiag a alo ahi (r + 1) S hold ih.1
      (fun r2 h2 j2 => ih.2 r2 (by omega) j2)

/-- On an identical window the main loop ends with a diagonal best match. -/
theorem mainLoop_diag (a : List Char) (alo ahi : Nat) :
    (mainLoop a a alo ahi alo ahi).bi = (mainLoop a a alo ahi alo ahi).bj := by
  unfold mainLoop
  rcases Nat.eq_zero_or_pos (ahi - alo) with h | h
  · rw [h]
    rfl
  · have h2 : ahi - alo = (ahi - alo - 1) + 1 := by omega
    rw [h2]
    exact (pLoopDiag a alo ahi (ahi - alo - 1)).1

/-- Backward extension along the diagonal of an identical window always runs
to the left edge `alo`. -/
theorem extBackF_diag (a : List Char) (alo : Nat) :
    ∀ fuel bi bs, alo ≤ bi → bi ≤ alo + fuel →
      extBackF a a alo alo fuel bi bi bs = (alo, alo, bs + (bi - alo)) := by
  intro fuel
  induction fuel with
  | zero =>
    intro bi bs h1 h2
    have hbe : bi = alo := by omega
    subst hbe
    simp [extBackF]
  | succ fuel ih =>
    intro bi bs h1 h2
    simp only [extBackF]
    by_cases hb : alo < bi
    · rw [if_pos (show alo < bi ∧ alo < bi ∧ True from ⟨hb, hb, trivial⟩),
        ih (bi - 1) (bs + 1) (by omega) (by omega)]
      have he : bs + 1 + (bi - 1 - alo) = bs + (bi - alo) := by omega
      rw [he]
    · have hbe : bi = alo := by omega
      rw [hbe]
      rw [if_neg (show ¬(alo < alo ∧ alo < alo ∧ True) from
        fun hc => absurd hc.1 (lt_irrefl alo))]
      simp

theorem extBack_diag (a : List Char) (alo bi bs : Nat) (h : alo ≤ bi) :
    extBack a a alo alo bi bi bs = (alo, alo, bs + (bi - alo)) := by
  unfold extBack
  exact extBackF_diag a alo bi bi bs h (by omega)

/-- Forward extension from the left edge of an identical window runs to the
right edge: with exact fuel it adds the whole remaining length. -/
theorem extFwdF_full (a : List Char) (ahi alo : Nat) :
    ∀ fuel bs, alo + bs + fuel = ahi →
      extFwdF a a ahi ahi alo alo fuel bs = bs + fuel := by
  intro fuel
  induction fuel with
  | zero =>
    intro bs _
    rfl
  | succ fuel ih =>
    intro bs h
    simp only [extFwdF]
    rw [if_pos (show alo + bs < ahi ∧ alo + bs < ahi ∧ True from
      ⟨by omega, by omega, trivial⟩), ih (bs + 1) (by omega)]
    omega

theorem extFwd_full (a : List Char) (ahi alo bs : Nat) (h : alo + bs ≤ ahi) :
    extFwd a a ahi ahi alo alo bs = ahi - alo := by
  unfold extFwd
  rw [extFwdF_full a ahi alo (ahi - (alo + bs)) bs (by omega)]
  omega

/-- `find_longest_match` on an identical window returns the whole window: the
main loop's best is diagonal, the backward pass reaches `alo`, and the forward
pass reaches `ahi`. -/
theorem flm_self (a : List Char) (alo ahi : Nat) (h : alo ≤ ahi) :
    findLongestMatch a a alo ahi alo ahi = (alo, alo, ahi - alo) := by
  have hdiag := mainLoop_diag a alo ahi
  have hinv := mainLoop_inv a a alo ahi alo ahi
  simp only [findLongestMatch]
  set s := mainLoop a a alo ahi alo ahi with hs
  have hbounds : alo ≤ s.bi ∧ s.bi + s.bs ≤ ahi := by
    by_cases hz : s.bs = 0
    · obtain ⟨h1, _⟩ := hinv.2 hz
      omega
    · obtain ⟨h1, h2, _, _⟩ := hinv.1 hz
      exact ⟨h1, h2⟩
  rw [← hdiag, extBack_diag a alo s.bi s.bs hbounds.1]
  simp only [Prod.fst, Prod.snd]
  rw [extFwd_full a ahi alo (s.bs + (s.bi - alo)) (by omega)]

/-- A degenerate identical window contributes no matches. -/
theorem matchTotalF_empty (a : List Char) :
    ∀ fuel alo, matchTotalF a a fuel alo alo alo alo = 0 := by
  intro fuel alo
  cases fuel with
  | zero => rfl
  | succ fuel =>
    simp only [matchTotalF]
    rw [flm_self a alo alo (le_refl alo)]
    simp

/-- With any spare fuel, the total of matching blocks over an identical
window is the window length. -/
theorem matchTotalF_self (a : List Char) (alo ahi fuel : Nat) (h : alo ≤ ahi) :
    matchTotalF a a (fuel + 1) alo ahi alo ahi = ahi - alo := by
  simp only [matchTotalF]
  rw [flm_self a alo ahi h]
  by_cases hz : ahi - alo = 0
  · simp [hz]
  · rw [if_neg (show ¬((alo, alo, ahi - alo) : Nat × Nat × Nat).2.2 = 0 from hz)]
    show matchTotalF a a fuel alo alo alo alo + (ahi - alo) +
      matchTotalF a a fuel (alo + (ahi - alo)) ahi (alo + (ahi - alo)) ahi = ahi - alo
    have h2 : alo + (ahi - alo) = ahi := by omega
    rw [matchTotalF_empty a fuel alo, h2, matchTotalF_empty a fuel ahi]
    omega

theorem matchTotal_self (a : List Char) :
    matchTotal a a 0 a.length 0 a.length = a.length := by
  unfold matchTotal
  rcases Nat.eq_zero_or_pos a.length with hz | hp
  · rw [hz]
    rfl
  · obtain ⟨n, hn⟩ : ∃ n, a.length = n + 1 := ⟨a.length - 1, by omega⟩
    rw [hn]
    exact matchTotalF_self a 0 (n + 1) n (by omega)

/-- `SequenceMatcher(None, s, s).ratio()` is 1: identical strings have full
similarity, including when the autojunk heuristic purges popular characters. -/
theorem similarity_self (a : List Char) : fval (similarity a a) = 1 := by
  unfold similarity
  by_cases h : a.length + a.length = 0
  · rw [dif_pos h]
    exact fval_fone
  · rw [dif_neg h, matchTotal_self]
    rw [fval_mk]
    have hne : ((a.length : ℚ)) ≠ 0 := by
      intro hc
      exact h (by exact_mod_cast by simpa using hc)
    push_cast
    field_simp
    ring

/-- C3: for every query and target text, `fuzzy_score` equals the minimum of
1.0 and the sum of (a) 0.3 for each whitespace-delimited token of the
lowercased query occurring as a substring of the lowercased target and (b) the
sequence-similarity ratio of the lowercased strings; the ratio lies in [0,1],
is 1.0 for identical strings and 0.0 for completely dissimilar (character-
disjoint, not both empty) strings.  Determinism is immediate: the embedding
is a pure function of the two inputs. -/
theorem C3_theorem (query text : List Char) :
    fval (fuzzy_score query text) =
      min 1 (3 / 10 * (((pySplit (pyLower query)).filter
          (fun w => decide (w <:+: pyLower text))).length : ℚ) +
        fval (similarity (pyLower query) (pyLower text))) ∧
    0 ≤ fval (similarity (pyLower query) (pyLower text)) ∧
    fval (similarity (pyLower query) (pyLower text)) ≤ 1 ∧
    (pyLower query = pyLower text →
      fval (similarity (pyLower query) (pyLower text)) = 1) ∧
    ((∀ c ∈ pyLower query, c ∉ pyLower text) →
      pyLower query ≠ [] ∨ pyLower text ≠ [] →
      fval (similarity (pyLower query) (pyLower text)) = 0) := by
  refine ⟨?_, (similarity_range _ _).1, (similarity_range _ _).2, ?_, ?_⟩
  · simp only [fuzzy_score]
    rw [fval_fmin, fval_fone, fval_fadd, fval_substr_foldl, fval_fzero]
    have hf : (pySplit (pyLower query)).filter (fun w => subIn w (pyLower text)) =
        (pySplit (pyLower query)).filter (fun w => decide (w <:+: pyLower text)) := by
      apply List.filter_congr
      intro w _
      by_cases hw : w <:+: pyLower text
      · rw [subIn_iff.mpr hw, decide_eq_true hw]
      · have h1 : subIn w (pyLower text) = false := by
          rcases hsi : subIn w (pyLower text) with _ | _
          · rfl
          · exact absurd (subIn_iff.mp hsi) hw
        rw [h1, decide_eq_false hw]
    rw [hf, zero_add]
  · intro h
    rw [h]
    exact similarity_self (pyLower text)
  · intro hdisj hne
    apply similarity_disjoint hdisj
    intro hc
    rcases hne with h | h
    · exact h (List.length_eq_zero.mp (by omega))
    · exact h (List.length_eq_zero.mp (by omega))

/-- C3 (witness): at the concrete inputs "ab"/"ab" the ratio is 1, and at
"ab"/"xy" — character-disjoint and non-empty — it is 0. -/
theorem C3_witness :
    fval (similarity (pyLower abL) (pyLower abL)) = 1 ∧
      fval (similarity (pyLower abL) (pyLower xyL)) = 0 :=
  ⟨(C3_theorem abL abL).2.2.2.1 rfl,
    (C3_theorem abL xyL).2.2.2.2 (by decide) (Or.inl (by decide))⟩

end CoPPortal
